import Mathlib

set_option maxHeartbeats 1000000

/-!
Verification development for src/lib/pymafx/utils/keypoints.py.

The module is a library of stateless numeric functions over multi-dimensional
arrays: heatmap-label encoding, argmax and soft-integral heatmap decoding,
left/right keypoint flipping, and OKS-based non-max suppression.  We embed it
shallowly over exact rationals.  Floating point values become rationals,
np.exp becomes an abstract function parameter expF, and cv2.resize (an
external image-processing collaborator) becomes an abstract resize parameter.
Arrays are total functions from natural-number indices; entries outside the
documented shape are 0, the value numpy zero-initialization gives them.
-/

namespace KeypointsPy

/-- A region of interest (x1, y1, x2, y2) in continuous image coordinates:
one row of a rois array. -/
structure Roi where
  x1 : ℚ
  y1 : ℚ
  x2 : ℚ
  y2 : ℚ

instance : Inhabited Roi := ⟨⟨0, 0, 0, 0⟩⟩

/-- Sum of f over indices 0, ..., n-1 (a numpy sum along an axis of length n). -/
def sumR (n : ℕ) (f : ℕ → ℚ) : ℚ := ∑ j in Finset.range n, f j

/-- The per-joint falloff table of compute_oks (keypoints.py lines 232-234),
including the final division by 10. -/
def sigmas : List ℚ :=
  [26/100, 25/100, 25/100, 35/100, 35/100, 79/100, 79/100, 72/100, 72/100,
   62/100, 62/100, 107/100, 107/100, 87/100, 87/100, 89/100, 89/100].map
    (fun s => s / 10)

/-- The number of COCO keypoints: the length of the sigma table. -/
def numKpts : ℕ := 17

/-- One entry of the sigma table. -/
def sigma (k : ℕ) : ℚ := sigmas.getD k 0

/-- vars = (sigmas * 2) ** 2 (keypoints.py line 235). -/
def oksVars (k : ℕ) : ℚ := (sigma k * 2) ^ 2

/-- np.spacing(1), the float64 ulp of 1.0, used at line 244 to guard the area. -/
def epsSpacing : ℚ := 1 / 2 ^ 52

/-- compute_oks (keypoints.py lines 224-247), with np.exp abstracted as expF.
src is indexed (channel, joint); dst is indexed (candidate, channel, joint);
dstRoi is accepted and unused, exactly as in the source.  The result for
candidate i is the sum over the 17 joints of expF of the negated normalized
squared distance, divided by the joint count. -/
def compute_oks (expF : ℚ → ℚ) (src : ℕ → ℕ → ℚ) (srcRoi : Roi)
    (dst : ℕ → ℕ → ℕ → ℚ) (dstRoi : ℕ → Roi) (i : ℕ) : ℚ :=
  let srcArea := (srcRoi.x2 - srcRoi.x1 + 1) * (srcRoi.y2 - srcRoi.y1 + 1)
  sumR numKpts (fun k =>
    let dx := dst i 0 k - src 0 k
    let dy := dst i 1 k - src 1 k
    expF (-((dx ^ 2 + dy ^ 2) / oksVars k / (srcArea + epsSpacing) / 2))) /
    (numKpts : ℚ)

/-- ROI width as computed in heatmaps_to_keypoints (lines 101 and 103):
clamped below by 1. -/
def h2k_width (roi : Roi) : ℚ := max (roi.x2 - roi.x1) 1

/-- ROI height as computed in heatmaps_to_keypoints (lines 102 and 104):
clamped below by 1. -/
def h2k_height (roi : Roi) : ℚ := max (roi.y2 - roi.y1) 1

/-- The x-scale denominator of keypoints_to_heatmap_labels (line 160): the raw
ROI width, with no clamping. -/
def k2h_denom_x (roi : Roi) : ℚ := roi.x2 - roi.x1

/-- The y-scale denominator of keypoints_to_heatmap_labels (line 161): the raw
ROI height, with no clamping. -/
def k2h_denom_y (roi : Roi) : ℚ := roi.y2 - roi.y1

/-- scale_x of keypoints_to_heatmap_labels (line 160), for heatmap side hm. -/
def k2h_scale_x (hm : ℕ) (roi : Roi) : ℚ := hm / k2h_denom_x roi

/-- scale_y of keypoints_to_heatmap_labels (line 161). -/
def k2h_scale_y (hm : ℕ) (roi : Roi) : ℚ := hm / k2h_denom_y roi

/-- Discrete x coordinate produced by keypoints_to_heatmap_labels for one entry
(lines 163-175): shift by the ROI origin, scale, floor, then override to
hm - 1 when the raw x equals the ROI right edge exactly. -/
def k2h_x (hm : ℕ) (roi : Roi) (xr : ℚ) : ℤ :=
  let scaled : ℤ := ⌊(xr - roi.x1) * k2h_scale_x hm roi⌋
  if xr = roi.x2 then (hm : ℤ) - 1 else scaled

/-- Discrete y coordinate of one entry (lines 177-180), with the bottom-edge
override. -/
def k2h_y (hm : ℕ) (roi : Roi) (yr : ℚ) : ℤ :=
  let scaled : ℤ := ⌊(yr - roi.y1) * k2h_scale_y hm roi⌋
  if yr = roi.y2 then (hm : ℤ) - 1 else scaled

/-- Validity of one encoded entry (lines 182-188): the discrete location lies
inside the hm x hm grid and the visibility channel is positive. -/
def k2h_valid (hm : ℕ) (roi : Roi) (xr yr vis : ℚ) : Bool :=
  ((decide (0 ≤ k2h_x hm roi xr) && decide (0 ≤ k2h_y hm roi yr)) &&
   (decide (k2h_x hm roi xr < (hm : ℤ)) && decide (k2h_y hm roi yr < (hm : ℤ)))) &&
  decide (0 < vis)

/-- One heatmap label entry (lines 190-191): lin_ind * valid. -/
def k2h_label (hm : ℕ) (roi : Roi) (xr yr vis : ℚ) : ℚ :=
  ((k2h_y hm roi yr * hm + k2h_x hm roi xr : ℤ) : ℚ) *
    (if k2h_valid hm roi xr yr vis then 1 else 0)

/-- One weight entry (line 192). -/
def k2h_weight (hm : ℕ) (roi : Roi) (xr yr vis : ℚ) : ℚ :=
  if k2h_valid hm roi xr yr vis then 1 else 0

/-- keypoints_to_heatmap_labels (lines 143-194): the heatmaps and weights
arrays of shape (len rois, K) built entry-wise from the per-entry encoders;
kps is indexed (instance, channel, joint), hm is cfg.KRCNN.HEATMAP_SIZE and
K is cfg.KRCNN.NUM_KEYPOINTS. -/
def keypoints_to_heatmap_labels (hm K : ℕ) (kps : ℕ → ℕ → ℕ → ℚ)
    (rois : List Roi) : (ℕ → ℕ → ℚ) × (ℕ → ℕ → ℚ) :=
  (fun n kp => if n < rois.length ∧ kp < K then
      k2h_label hm (rois.getD n default) (kps n 0 kp) (kps n 1 kp) (kps n 2 kp)
    else 0,
   fun n kp => if n < rois.length ∧ kp < K then
      k2h_weight hm (rois.getD n default) (kps n 0 kp) (kps n 1 kp) (kps n 2 kp)
    else 0)

/-- A Python error signal: an unresolved module-level name. -/
inductive PyErr
  | nameError (n : String)

/-- The cfg.KRCNN configuration record both functions try to read. -/
structure KrcnnCfg where
  NUM_KEYPOINTS : ℕ
  HEATMAP_SIZE : ℕ
  INFERENCE_MIN_SIZE : ℤ

/-- The module-level bindings the two functions consult.  In keypoints.py the
imports that would bind cfg and blob_utils (lines 30-31) are commented out and
neither name is defined anywhere else in the module, so both are absent. -/
structure ModuleEnv where
  cfg : Option KrcnnCfg
  blob_utils : Option Unit

/-- The module environment of keypoints.py as written: no cfg, no blob_utils. -/
def theModuleEnv : ModuleEnv := ⟨none, none⟩

/-- keypoints_to_heatmap_labels as executed against a module environment: its
first statement (the assert at line 152) already reads the module-level name
cfg, and lines 155-156 read blob_utils, so name resolution precedes any
computation of output. -/
def keypoints_to_heatmap_labels_run (env : ModuleEnv) (kps : ℕ → ℕ → ℕ → ℚ)
    (rois : List Roi) : Except PyErr ((ℕ → ℕ → ℚ) × (ℕ → ℕ → ℚ)) :=
  match env.cfg with
  | none => .error (.nameError "cfg")
  | some c =>
    match env.blob_utils with
    | none => .error (.nameError "blob_utils")
    | some _ =>
      .ok (keypoints_to_heatmap_labels c.HEATMAP_SIZE c.NUM_KEYPOINTS kps rois)

/-- Index of the first maximum of f over 0, ..., n-1 (numpy argmax over a
flattened array, which breaks ties toward the first occurrence).  Returns 0
when n = 0. -/
def argmaxFlat (n : ℕ) (f : ℕ → ℚ) : ℕ :=
  (List.range n).foldl (fun best j => if f best < f j then j else best) 0

/-- Maximum of f over 0, ..., n-1, seeded with f 0 (numpy max of a nonempty
array). -/
def maxR (n : ℕ) (f : ℕ → ℚ) : ℚ :=
  (List.range n).foldl (fun a j => max a (f j)) (f 0)

/-- scores_to_probs (lines 197-205): per-channel spatial softmax stabilized by
subtracting the channel maximum, with np.exp abstracted as expF.  The array m
is indexed (channel, row, column) with spatial shape H x W. -/
def scores_to_probs (expF : ℚ → ℚ) (H W : ℕ) (m : ℕ → ℕ → ℕ → ℚ) :
    ℕ → ℕ → ℕ → ℚ :=
  fun c y x =>
    let mx := maxR (H * W) (fun j => m c (j / W) (j % W))
    let s := sumR (H * W) (fun j => expF (m c (j / W) (j % W) - mx))
    expF (m c y x - mx) / s

/-- Working resolution width for one ROI (lines 105, 113-118): the ceiling of
the clamped width, floored up to min_size when min_size > 0. -/
def roiMapW (minSize : ℤ) (roi : Roi) : ℕ :=
  (if 0 < minSize then max ⌈h2k_width roi⌉ minSize else ⌈h2k_width roi⌉).toNat

/-- Working resolution height for one ROI (lines 106, 113-118). -/
def roiMapH (minSize : ℤ) (roi : Roi) : ℕ :=
  (if 0 < minSize then max ⌈h2k_height roi⌉ minSize else ⌈h2k_height roi⌉).toNat

/-- The body of the per-ROI loop of heatmaps_to_keypoints (lines 112-138) for
one instance: resize the instance's heatmap stack to the working resolution,
convert scores to probabilities, then decode every joint by argmax of the raw
resized scores.  resize stands for cv2.resize with cubic interpolation, given
the target width and height; m is the instance's heatmap (joint, row, column);
the result is indexed (channel, joint) with channels (x, y, score, prob). -/
def h2k_instance (expF : ℚ → ℚ)
    (resize : (ℕ → ℕ → ℕ → ℚ) → ℕ → ℕ → (ℕ → ℕ → ℕ → ℚ))
    (minSize : ℤ) (m : ℕ → ℕ → ℕ → ℚ) (roi : Roi) : ℕ → ℕ → ℚ :=
  let W := roiMapW minSize roi
  let H := roiMapH minSize roi
  let wCorr := h2k_width roi / W
  let hCorr := h2k_height roi / H
  let roi_map := resize m W H
  let probs := scores_to_probs expF H W roi_map
  fun c k =>
    let pos := argmaxFlat (H * W) (fun j => roi_map k (j / W) (j % W))
    let xInt := pos % W
    let yInt := (pos - xInt) / W
    if c = 0 then (xInt + 1 / 2) * wCorr + roi.x1
    else if c = 1 then (yInt + 1 / 2) * hCorr + roi.y1
    else if c = 2 then roi_map k yInt xInt
    else probs k yInt xInt

/-- heatmaps_to_keypoints (lines 88-140): xy_preds of shape
(len rois, 4, numK), indexed (instance, channel, joint); entries outside that
shape keep the 0 of the np.zeros initialization at line 111.  maps is indexed
(instance, joint, row, column); minSize is cfg.KRCNN.INFERENCE_MIN_SIZE and
numK is cfg.KRCNN.NUM_KEYPOINTS. -/
def heatmaps_to_keypoints (expF : ℚ → ℚ)
    (resize : (ℕ → ℕ → ℕ → ℚ) → ℕ → ℕ → (ℕ → ℕ → ℕ → ℚ))
    (minSize : ℤ) (numK : ℕ) (maps : ℕ → ℕ → ℕ → ℕ → ℚ) (rois : List Roi) :
    ℕ → ℕ → ℕ → ℚ :=
  fun i c k =>
    if i < rois.length ∧ c < 4 ∧ k < numK then
      h2k_instance expF resize minSize (maps i) (rois.getD i default) c k
    else 0

/-- heatmaps_to_keypoints as executed against a module environment: line 110
reads the module-level name cfg before the output array is even allocated, so
name resolution precedes any output. -/
def heatmaps_to_keypoints_run (env : ModuleEnv) (expF : ℚ → ℚ)
    (resize : (ℕ → ℕ → ℕ → ℚ) → ℕ → ℕ → (ℕ → ℕ → ℕ → ℚ))
    (maps : ℕ → ℕ → ℕ → ℕ → ℚ) (rois : List Roi) :
    Except PyErr (ℕ → ℕ → ℕ → ℚ) :=
  match env.cfg with
  | none => .error (.nameError "cfg")
  | some c =>
    .ok (heatmaps_to_keypoints expF resize c.INFERENCE_MIN_SIZE
      c.NUM_KEYPOINTS maps rois)

/-- Softmax over a flattened extent E (F.softmax along the last axis of the
(N, K, -1) reshape at lines 331-332), with exp abstracted as expF. -/
def softmaxFlat (expF : ℚ → ℚ) (E : ℕ) (t : ℕ → ℚ) : ℕ → ℚ :=
  fun j => expF (t j) / sumR E (fun j2 => expF (t j2))

/-- generate_3d_integral_preds_tensor (lines 281-324) for one (instance,
joint) slice p of the heatmap, over flat row-major indices.  With
zDim = some d the slice is reshaped to (d, yDim, xDim) and with zDim = none
to (yDim, xDim); the components are the axis marginals multiplied by
torch.arange index values and summed, in the source's summation order,
returned as (accu_x, accu_y, accu_z option). -/
def generate_3d_integral_preds_tensor (xDim yDim : ℕ) (zDim : Option ℕ)
    (p : ℕ → ℚ) : ℚ × ℚ × Option ℚ :=
  match zDim with
  | some d =>
    (sumR xDim (fun x => (x : ℚ) * sumR yDim (fun y => sumR d (fun z =>
        p (z * (yDim * xDim) + y * xDim + x)))),
     sumR yDim (fun y => (y : ℚ) * sumR xDim (fun x => sumR d (fun z =>
        p (z * (yDim * xDim) + y * xDim + x)))),
     some (sumR d (fun z => (z : ℚ) * sumR xDim (fun x => sumR yDim (fun y =>
        p (z * (yDim * xDim) + y * xDim + x))))))
  | none =>
    (sumR xDim (fun x => (x : ℚ) * sumR yDim (fun y => p (y * xDim + x))),
     sumR yDim (fun y => (y : ℚ) * sumR xDim (fun x => p (y * xDim + x))),
     none)

/-- softmax_integral_tensor (lines 329-355) for one (instance, joint) heatmap
t over flat indices: global softmax over the full extent, then integral
decoding; output axis 0 is x, axis 1 is y, and axis 2 is z in 3D mode.  No
ROI remapping is applied: the rescaling lines in the source are commented
out, and the axis marginals are concatenated directly. -/
def softmax_integral_tensor (expF : ℚ → ℚ) (hmWidth hmHeight : ℕ)
    (hmDepth : Option ℕ) (t : ℕ → ℚ) : ℕ → ℚ :=
  match hmDepth with
  | some d =>
    let p := softmaxFlat expF (d * (hmHeight * hmWidth)) t
    let r := generate_3d_integral_preds_tensor hmWidth hmHeight (some d) p
    fun a => if a = 0 then r.1 else if a = 1 then r.2.1 else
      if a = 2 then r.2.2.getD 0 else 0
  | none =>
    let p := softmaxFlat expF (hmHeight * hmWidth) t
    let r := generate_3d_integral_preds_tensor hmWidth hmHeight none p
    fun a => if a = 0 then r.1 else if a = 1 then r.2.1 else 0

/-- A concrete resize function used by witnesses: it ignores the source map
and returns the map (k, y, x) -> y + x. -/
def resizeLin : (ℕ → ℕ → ℕ → ℚ) → ℕ → ℕ → (ℕ → ℕ → ℕ → ℚ) :=
  fun _ _ _ => fun _ y x => (y : ℚ) + x

/-- A concrete all-zero heatmap batch used by witnesses. -/
def mapsZero : ℕ → ℕ → ℕ → ℕ → ℚ := fun _ _ _ _ => 0

/-- Mean per-joint score of one pose: np.mean(kp_predictions[:, 2, :], axis=1)
at line 210, for the score channel 2 over the 17 joints. -/
def poseScore (p : ℕ → ℕ → ℚ) : ℚ := sumR numKpts (fun k => p 2 k) / (numKpts : ℚ)

/-- Insertion into a descending-sorted index list, used to model
scores.argsort()[::-1] (line 211) with a deterministic tie order. -/
def insertDesc (s : ℕ → ℚ) (i : ℕ) : List ℕ → List ℕ
  | [] => [i]
  | j :: rest => if s j < s i then i :: j :: rest else j :: insertDesc s i rest

/-- Descending insertion sort of indices by score. -/
def sortDesc (s : ℕ → ℚ) : List ℕ → List ℕ
  | [] => []
  | i :: rest => insertDesc s i (sortDesc s rest)

/-- order = scores.argsort()[::-1] (line 211): the indices 0..n-1 sorted by
score in descending order. -/
def argsortDesc (n : ℕ) (s : ℕ → ℚ) : List ℕ := sortDesc s (List.range n)

/-- The greedy suppression loop of nms_oks (lines 213-219): keep the first
pending index i, drop every pending j whose OKS against i exceeds thresh,
recurse on the survivors. -/
def nmsLoop (expF : ℚ → ℚ) (preds : ℕ → ℕ → ℕ → ℚ) (rois : ℕ → Roi)
    (thresh : ℚ) : List ℕ → List ℕ
  | [] => []
  | i :: rest =>
    i :: nmsLoop expF preds rois thresh
      (rest.filter fun j =>
        decide (compute_oks expF (preds i) (rois i) preds rois j ≤ thresh))
termination_by l => l.length
decreasing_by
  simp only [List.length_cons]
  exact Nat.lt_succ_of_le (List.length_filter_le _ _)

/-- nms_oks (lines 208-221): n poses given as instance-indexed arrays, sorted
by mean channel-2 score descending, then greedily suppressed by OKS. -/
def nms_oks (expF : ℚ → ℚ) (preds : ℕ → ℕ → ℕ → ℚ) (rois : ℕ → Roi) (n : ℕ)
    (thresh : ℚ) : List ℕ :=
  nmsLoop expF preds rois thresh (argsortDesc n (fun i => poseScore (preds i)))

/-- A concrete two-pose batch used by witnesses: instance 0 scores 1 on every
channel, instance 1 scores 0. -/
def predsTwo : ℕ → ℕ → ℕ → ℚ := fun i _ _ => if i = 0 then 1 else 0

/-- A concrete two-ROI batch used by witnesses. -/
def roisTwo : ℕ → Roi := fun _ => ⟨0, 0, 1, 1⟩

/-- An (instance, channel, joint) keypoint coordinate array; the channels of
interest are 0 = x, 1 = y, 2 = visibility. -/
abbrev Kps := ℕ → ℕ → ℕ → ℚ

/-- Write one joint column (all instances and channels) of a keypoint array. -/
def writeJoint (a : Kps) (j : ℕ) (col : ℕ → ℕ → ℚ) : Kps :=
  fun i c j2 => if j2 = j then col i c else a i c j2

/-- One iteration of the swap loop of flip_keypoints (lines 61-65): both
writes read the original array and write into the running copy. -/
def swapPair (orig : Kps) (acc : Kps) (pr : ℕ × ℕ) : Kps :=
  writeJoint (writeJoint acc pr.1 (fun i c => orig i c pr.2)) pr.2
    (fun i c => orig i c pr.1)

/-- The joint-index pairs of the flip map after the keypoints.index lookups
(lines 62-63). -/
def flipPairs (keypoints : List String)
    (keypoint_flip_map : List (String × String)) : List (ℕ × ℕ) :=
  keypoint_flip_map.map
    (fun pr => (keypoints.indexOf pr.1, keypoints.indexOf pr.2))

/-- The keypoint array after the swap loop of flip_keypoints (lines 60-65). -/
def swappedOf (keypoints : List String)
    (keypoint_flip_map : List (String × String)) (kps : Kps) : Kps :=
  (flipPairs keypoints keypoint_flip_map).foldl (swapPair kps) kps

/-- The keypoint array after the x mirror (line 68): x -> width - x - 1. -/
def mirroredOf (keypoints : List String)
    (keypoint_flip_map : List (String × String)) (kps : Kps) (width : ℚ) :
    Kps :=
  fun i c j =>
    if c = 0 then width - swappedOf keypoints keypoint_flip_map kps i 0 j - 1
    else swappedOf keypoints keypoint_flip_map kps i c j

/-- flip_keypoints (lines 56-72): swap the paired joint columns, mirror the x
channel, then force x to 0 wherever the visibility channel is 0
(lines 69-71). -/
def flip_keypoints (keypoints : List String)
    (keypoint_flip_map : List (String × String)) (keypoint_coords : Kps)
    (width : ℚ) : Kps :=
  fun i c j =>
    if c = 0 ∧ mirroredOf keypoints keypoint_flip_map keypoint_coords width i 2 j = 0
    then 0
    else mirroredOf keypoints keypoint_flip_map keypoint_coords width i c j

/-- The data-model invariant on a flip map's index pairs (spec section 3: the
mapping is symmetric in effect and covers only bilateral joints): no joint
index appears twice among the pair endpoints. -/
def validPairs (pairs : List (ℕ × ℕ)) : Prop :=
  (pairs.flatMap (fun pr => [pr.1, pr.2])).Nodup

instance validPairsDecidable (pairs : List (ℕ × ℕ)) :
    Decidable (validPairs pairs) := by
  unfold validPairs
  infer_instance

/-- Whether a pair mentions the joint index j. -/
def mentions (j : ℕ) (pr : ℕ × ℕ) : Bool :=
  decide (pr.1 = j) || decide (pr.2 = j)

/-- The joint permutation realized by the swap loop: the partner of j in the
first pair mentioning j, or j itself when no pair mentions it. -/
def permOf (pairs : List (ℕ × ℕ)) (j : ℕ) : ℕ :=
  match pairs.find? (mentions j) with
  | some pr => if pr.1 = j then pr.2 else pr.1
  | none => j

/-- A concrete keypoint array used by witnesses. -/
def kpsSample : Kps := fun i c j => (i : ℚ) + c + j + 1

/-- A numpy array value living on the heap: a 3D or a 4D array. -/
inductive PyVal where
  | arr3 (d : ℕ → ℕ → ℕ → ℚ)
  | arr4 (d : ℕ → ℕ → ℕ → ℕ → ℚ)

/-- A heap of array values: addresses below next are allocated. -/
structure Heap where
  mem : ℕ → PyVal
  next : ℕ

/-- Allocation of a fresh array (np.zeros, .copy(), cv2.resize results). -/
def Heap.alloc (h : Heap) (v : PyVal) : Heap × ℕ :=
  (⟨fun a => if a = h.next then v else h.mem a, h.next + 1⟩, h.next)

/-- In-place update of an existing array. -/
def Heap.store (h : Heap) (a : ℕ) (v : PyVal) : Heap :=
  ⟨fun b => if b = a then v else h.mem b, h.next⟩

/-- Read a 3D array value from the heap. -/
def getArr3 (h : Heap) (a : ℕ) : ℕ → ℕ → ℕ → ℚ :=
  match h.mem a with
  | .arr3 d => d
  | .arr4 _ => fun _ _ _ => 0

/-- Read a 4D array value from the heap. -/
def getArr4 (h : Heap) (a : ℕ) : ℕ → ℕ → ℕ → ℕ → ℚ :=
  match h.mem a with
  | .arr4 d => d
  | .arr3 _ => fun _ _ _ _ => 0

/-- flip_keypoints as heap operations: line 60 allocates the copy, and the
swap loop (lines 61-65), the x mirror (line 68) and the visibility reset
(lines 70-71) write only into that copy, reading the joints to swap from the
input array; the input array itself is never written. -/
def flip_keypoints_st (keypoints : List String)
    (keypoint_flip_map : List (String × String)) (width : ℚ) (h : Heap)
    (a : ℕ) : Heap × ℕ :=
  let orig := getArr3 h a
  let al := h.alloc (.arr3 orig)
  let h1 := al.1
  let nid := al.2
  let h2 := (flipPairs keypoints keypoint_flip_map).foldl
    (fun hh pr => hh.store nid (.arr3 (swapPair orig (getArr3 hh nid) pr))) h1
  let h3 := h2.store nid (.arr3 (fun i c j =>
    if c = 0 then width - getArr3 h2 nid i 0 j - 1 else getArr3 h2 nid i c j))
  let h4 := h3.store nid (.arr3 (fun i c j =>
    if c = 0 ∧ getArr3 h3 nid i 2 j = 0 then 0 else getArr3 h3 nid i c j))
  (h4, nid)

/-- scores_to_probs as a heap operation (lines 197-205): it writes the
normalized scores back into its argument array in place and returns the same
address. -/
def scores_to_probs_st (expF : ℚ → ℚ) (H W : ℕ) (h : Heap) (a : ℕ) :
    Heap × ℕ :=
  (h.store a (.arr3 (scores_to_probs expF H W (getArr3 h a))), a)

/-- The body of the per-instance loop of heatmaps_to_keypoints as heap
operations (lines 112-138): allocate the resize output (line 121), allocate
its copy (line 126), let scores_to_probs mutate the copy in place, then write
the decoded channels for instance i into xy_preds at outId. -/
def h2kStep (expF : ℚ → ℚ)
    (resize : (ℕ → ℕ → ℕ → ℚ) → ℕ → ℕ → (ℕ → ℕ → ℕ → ℚ)) (minSize : ℤ)
    (numK : ℕ) (maps : ℕ → ℕ → ℕ → ℕ → ℚ) (rois : List Roi) (outId : ℕ)
    (hh : Heap) (i : ℕ) : Heap :=
  let roi := rois.getD i default
  let W := roiMapW minSize roi
  let H := roiMapH minSize roi
  let al2 := hh.alloc (.arr3 (resize (maps i) W H))
  let h2 := al2.1
  let rmId := al2.2
  let al3 := h2.alloc (.arr3 (getArr3 h2 rmId))
  let h3 := al3.1
  let cpId := al3.2
  let h4 := (scores_to_probs_st expF H W h3 cpId).1
  h4.store outId (.arr3 (fun i2 c k =>
    if i2 = i ∧ c < 4 ∧ k < numK then
      h2k_instance expF resize minSize (maps i) roi c k
    else getArr3 h4 outId i2 c k))

/-- heatmaps_to_keypoints as heap operations: line 111 allocates xy_preds and
the per-instance loop allocates and mutates only per-instance scratch arrays;
the input maps array is only read. -/
def heatmaps_to_keypoints_st (expF : ℚ → ℚ)
    (resize : (ℕ → ℕ → ℕ → ℚ) → ℕ → ℕ → (ℕ → ℕ → ℕ → ℚ)) (minSize : ℤ)
    (numK : ℕ) (h : Heap) (mapsId : ℕ) (rois : List Roi) : Heap × ℕ :=
  let maps := getArr4 h mapsId
  let al := h.alloc (.arr3 (fun _ _ _ => 0))
  let outId := al.2
  ((List.range rois.length).foldl
    (h2kStep expF resize minSize numK maps rois outId) al.1, outId)

/-- A concrete one-address heap used by witnesses. -/
def heapZero : Heap := ⟨fun _ => .arr3 (fun _ _ _ => 0), 1⟩

/-! ## Theorems -/

/-- Claim C5: compute_oks returns, for each candidate i, the mean over the
K = 17 joints of exp(-(dx^2 + dy^2) / (2 * (2*sigma_k)^2 * (area_src + eps))),
where area_src = (x2-x1+1)*(y2-y1+1) of the source ROI and eps = 2^-52 is a
tiny positive constant. -/
theorem compute_oks_formula (expF : ℚ → ℚ) (src : ℕ → ℕ → ℚ) (srcRoi : Roi)
    (dst : ℕ → ℕ → ℕ → ℚ) (dstRoi : ℕ → Roi) (i : ℕ) :
    compute_oks expF src srcRoi dst dstRoi i =
      sumR 17 (fun k =>
        expF (-(((dst i 0 k - src 0 k) ^ 2 + (dst i 1 k - src 1 k) ^ 2) /
          (2 * (2 * sigma k) ^ 2 *
            ((srcRoi.x2 - srcRoi.x1 + 1) * (srcRoi.y2 - srcRoi.y1 + 1) +
              epsSpacing))))) / 17
      ∧ 0 < epsSpacing := by
  constructor
  · show sumR numKpts _ / (numKpts : ℚ) = _
    rw [show ((numKpts : ℕ) : ℚ) = 17 by norm_num [numKpts]]
    rw [show numKpts = 17 from rfl]
    congr 1
    refine Finset.sum_congr rfl (fun k _ => ?_)
    simp only [div_div, oksVars]
    congr 1
    rw [neg_inj]
    congr 1
    ring
  · norm_num [epsSpacing]

/-- Claim C1 counterexample: the encoder keypoints_to_heatmap_labels does not
clamp the ROI extent before dividing: on the degenerate ROI (0,0,0,0) its x
and y scale denominators are 0 and differ from the claimed clamped minimum 1,
so the scale factors at lines 160-161 divide by zero there. -/
theorem k2h_no_clamp_counterexample :
    k2h_denom_x ⟨0, 0, 0, 0⟩ = 0 ∧ k2h_denom_y ⟨0, 0, 0, 0⟩ = 0 ∧
    k2h_denom_x ⟨0, 0, 0, 0⟩ ≠ max (k2h_denom_x ⟨0, 0, 0, 0⟩) 1 ∧
    k2h_denom_y ⟨0, 0, 0, 0⟩ ≠ max (k2h_denom_y ⟨0, 0, 0, 0⟩) 1 := by
  have h0 : k2h_denom_x ⟨0, 0, 0, 0⟩ = 0 := by norm_num [k2h_denom_x]
  have h1 : k2h_denom_y ⟨0, 0, 0, 0⟩ = 0 := by norm_num [k2h_denom_y]
  refine ⟨h0, h1, ?_, ?_⟩
  · rw [h0, max_eq_right (by norm_num : (0 : ℚ) ≤ 1)]
    norm_num
  · rw [h1, max_eq_right (by norm_num : (0 : ℚ) ≤ 1)]
    norm_num

/-- Claim C1 amended: only heatmaps_to_keypoints clamps the ROI width and
height to a minimum of 1 before computing the scale factors it divides by, so
its divisors are at least 1; keypoints_to_heatmap_labels divides by the raw
width and height, which are 0 on a degenerate zero-extent ROI. -/
theorem roi_clamp_amended :
    (∀ roi : Roi,
      h2k_width roi = max (roi.x2 - roi.x1) 1 ∧ 1 ≤ h2k_width roi ∧
      h2k_height roi = max (roi.y2 - roi.y1) 1 ∧ 1 ≤ h2k_height roi) ∧
    k2h_denom_x ⟨0, 0, 0, 0⟩ = 0 ∧ k2h_denom_y ⟨0, 0, 0, 0⟩ = 0 := by
  refine ⟨fun roi => ⟨rfl, le_max_right _ _, rfl, le_max_right _ _⟩, ?_, ?_⟩ <;>
    norm_num [k2h_denom_x, k2h_denom_y]

/-- Claim C2: with the module environment of keypoints.py as written (the cfg
and blob_utils imports commented out at lines 30-31), every call to
keypoints_to_heatmap_labels or heatmaps_to_keypoints fails with a NameError
on the module-level name cfg before producing any output: neither returns an
ok value for any input, so the configuration is not injectable by the caller. -/
theorem module_name_resolution_fails (kps : ℕ → ℕ → ℕ → ℚ) (rois : List Roi)
    (expF : ℚ → ℚ) (resize : (ℕ → ℕ → ℕ → ℚ) → ℕ → ℕ → (ℕ → ℕ → ℕ → ℚ))
    (maps : ℕ → ℕ → ℕ → ℕ → ℚ) (rois2 : List Roi) :
    keypoints_to_heatmap_labels_run theModuleEnv kps rois =
      .error (.nameError "cfg") ∧
    heatmaps_to_keypoints_run theModuleEnv expF resize maps rois2 =
      .error (.nameError "cfg") := ⟨rfl, rfl⟩

/-- Claim C7: a keypoint whose raw x equals the ROI right edge x2 exactly (or
whose raw y equals the bottom edge y2) has its discrete coordinate, after
scaling and floor, overridden to hm - 1, which is strictly less than hm, so
boundary-exact keypoints encode in range. -/
theorem k2h_boundary_clamp (hm : ℕ) (roi : Roi) (xr yr : ℚ)
    (hx : xr = roi.x2) (hy : yr = roi.y2) :
    k2h_x hm roi xr = (hm : ℤ) - 1 ∧ k2h_x hm roi xr < (hm : ℤ) ∧
    k2h_y hm roi yr = (hm : ℤ) - 1 ∧ k2h_y hm roi yr < (hm : ℤ) := by
  have ex : k2h_x hm roi xr = (hm : ℤ) - 1 := by
    unfold k2h_x
    rw [if_pos hx]
  have ey : k2h_y hm roi yr = (hm : ℤ) - 1 := by
    unfold k2h_y
    rw [if_pos hy]
  exact ⟨ex, by omega, ey, by omega⟩

/-- Witness for C7 at a concrete boundary-exact keypoint. -/
theorem k2h_boundary_clamp_witness :
    k2h_x 56 ⟨0, 0, 10, 20⟩ 10 = 55 ∧ k2h_x 56 ⟨0, 0, 10, 20⟩ 10 < 56 ∧
    k2h_y 56 ⟨0, 0, 10, 20⟩ 20 = 55 ∧ k2h_y 56 ⟨0, 0, 10, 20⟩ 20 < 56 := by
  have h := k2h_boundary_clamp 56 ⟨0, 0, 10, 20⟩ 10 20 rfl rfl
  exact ⟨by rw [h.1]; decide, by have := h.2.1; omega,
         by rw [h.2.2.1]; decide, by have := h.2.2.2; omega⟩

/-- Claim C8: the weight of one encoded entry is 1 exactly when the visibility
channel is positive and the discrete coordinates both lie in [0, hm); when
that condition holds the label is y*hm + x, and otherwise both the label and
the weight are 0. -/
theorem k2h_label_weight (hm : ℕ) (roi : Roi) (xr yr vis : ℚ) :
    (k2h_weight hm roi xr yr vis = 1 ↔
      (0 < vis ∧ 0 ≤ k2h_x hm roi xr ∧ k2h_x hm roi xr < (hm : ℤ) ∧
        0 ≤ k2h_y hm roi yr ∧ k2h_y hm roi yr < (hm : ℤ))) ∧
    k2h_label hm roi xr yr vis =
      (if 0 < vis ∧ 0 ≤ k2h_x hm roi xr ∧ k2h_x hm roi xr < (hm : ℤ) ∧
          0 ≤ k2h_y hm roi yr ∧ k2h_y hm roi yr < (hm : ℤ)
        then ((k2h_y hm roi yr * hm + k2h_x hm roi xr : ℤ) : ℚ) else 0) ∧
    k2h_weight hm roi xr yr vis =
      (if 0 < vis ∧ 0 ≤ k2h_x hm roi xr ∧ k2h_x hm roi xr < (hm : ℤ) ∧
          0 ≤ k2h_y hm roi yr ∧ k2h_y hm roi yr < (hm : ℤ)
        then 1 else 0) := by
  have hval : (k2h_valid hm roi xr yr vis = true) ↔
      (0 < vis ∧ 0 ≤ k2h_x hm roi xr ∧ k2h_x hm roi xr < (hm : ℤ) ∧
        0 ≤ k2h_y hm roi yr ∧ k2h_y hm roi yr < (hm : ℤ)) := by
    simp only [k2h_valid, Bool.and_eq_true, decide_eq_true_eq]
    tauto
  by_cases hv : k2h_valid hm roi xr yr vis = true
  · have hp := hval.mp hv
    refine ⟨?_, ?_, ?_⟩ <;> simp [k2h_weight, k2h_label, hv, hp]
  · have hp : ¬(0 < vis ∧ 0 ≤ k2h_x hm roi xr ∧ k2h_x hm roi xr < (hm : ℤ) ∧
        0 ≤ k2h_y hm roi yr ∧ k2h_y hm roi yr < (hm : ℤ)) :=
      fun hh => hv (hval.mpr hh)
    refine ⟨?_, ?_, ?_⟩ <;> simp [k2h_weight, k2h_label, hv, hp]

/-- Helper: the running best of the argmax fold is either the seed or a list
element, and its value dominates the seed and every list element. -/
theorem argmax_foldl_aux (f : ℕ → ℚ) :
    ∀ (l : List ℕ) (b : ℕ),
      (l.foldl (fun best j => if f best < f j then j else best) b = b ∨
        l.foldl (fun best j => if f best < f j then j else best) b ∈ l) ∧
      f b ≤ f (l.foldl (fun best j => if f best < f j then j else best) b) ∧
      ∀ j ∈ l, f j ≤ f (l.foldl (fun best j => if f best < f j then j else best) b)
  | [], b => ⟨Or.inl rfl, le_refl _, by simp⟩
  | a :: l, b => by
    have ih := argmax_foldl_aux f l (if f b < f a then a else b)
    simp only [List.foldl_cons]
    refine ⟨?_, ?_, ?_⟩
    · rcases ih.1 with h | h
      · rw [h]
        by_cases hc : f b < f a
        · rw [if_pos hc]
          exact Or.inr (List.mem_cons_self a l)
        · rw [if_neg hc]
          exact Or.inl rfl
      · exact Or.inr (List.mem_cons_of_mem a h)
    · refine le_trans ?_ ih.2.1
      by_cases hc : f b < f a
      · rw [if_pos hc]
        exact le_of_lt hc
      · rw [if_neg hc]
    · intro j hj
      rcases List.mem_cons.mp hj with h | h
      · rw [h]
        refine le_trans ?_ ih.2.1
        by_cases hc : f b < f a
        · rw [if_pos hc]
        · rw [if_neg hc]
          exact le_of_not_lt hc
      · exact ih.2.2 j h

/-- Helper: the argmax index is in range when the range is nonempty. -/
theorem argmaxFlat_lt (n : ℕ) (f : ℕ → ℚ) (hn : 0 < n) : argmaxFlat n f < n := by
  unfold argmaxFlat
  rcases (argmax_foldl_aux f (List.range n) 0).1 with h | h
  · rw [h]
    exact hn
  · exact List.mem_range.mp h

/-- Helper: the argmax value dominates every in-range value. -/
theorem argmaxFlat_le (n : ℕ) (f : ℕ → ℚ) :
    ∀ j < n, f j ≤ f (argmaxFlat n f) := by
  intro j hj
  unfold argmaxFlat
  exact (argmax_foldl_aux f (List.range n) 0).2.2 j (List.mem_range.mpr hj)

/-- Helper: the working resolution width is always positive, because the
clamped width is at least 1 before the ceiling. -/
theorem roiMapW_pos (minSize : ℤ) (roi : Roi) : 0 < roiMapW minSize roi := by
  unfold roiMapW
  have h1 : (1 : ℚ) ≤ h2k_width roi := le_max_right _ _
  have hc : (1 : ℤ) ≤ ⌈h2k_width roi⌉ := by
    have := Int.ceil_mono h1
    simpa using this
  by_cases hm : 0 < minSize
  · rw [if_pos hm]
    have h2 : (1 : ℤ) ≤ max ⌈h2k_width roi⌉ minSize :=
      le_trans hc (le_max_left _ _)
    omega
  · rw [if_neg hm]
    omega

/-- Helper: the working resolution height is always positive. -/
theorem roiMapH_pos (minSize : ℤ) (roi : Roi) : 0 < roiMapH minSize roi := by
  unfold roiMapH
  have h1 : (1 : ℚ) ≤ h2k_height roi := le_max_right _ _
  have hc : (1 : ℤ) ≤ ⌈h2k_height roi⌉ := by
    have := Int.ceil_mono h1
    simpa using this
  by_cases hm : 0 < minSize
  · rw [if_pos hm]
    have h2 : (1 : ℤ) ≤ max ⌈h2k_height roi⌉ minSize :=
      le_trans hc (le_max_left _ _)
    omega
  · rw [if_neg hm]
    omega

/-- Helper: removing the remainder before dividing does not change the
quotient: (pos - pos % W) / W = pos / W. -/
theorem sub_mod_div (pos W : ℕ) : (pos - pos % W) / W = pos / W := by
  rcases Nat.eq_zero_or_pos W with hW | hW
  · subst hW
    simp [Nat.mod_zero]
  · have h := Nat.div_add_mod pos W
    have h2 : pos - pos % W = W * (pos / W) := by omega
    rw [h2, Nat.mul_div_cancel_left _ hW]

/-- Helper: decomposition of a flat row-major index: (y*W + x) / W = y and
(y*W + x) % W = x when x < W. -/
theorem flat_index_decomp (y x W : ℕ) (hx : x < W) :
    (y * W + x) / W = y ∧ (y * W + x) % W = x := by
  have hW : 0 < W := by omega
  constructor
  · rw [Nat.add_comm, Nat.add_mul_div_right _ _ hW, Nat.div_eq_of_lt hx]
    omega
  · rw [Nat.add_comm, Nat.add_mul_mod_self_right, Nat.mod_eq_of_lt hx]

/-- Claim C3: in heatmaps_to_keypoints, for instance i and joint k, with
(x_int, y_int) the position of the maximum raw score in joint k's resized
heatmap (first occurrence, in range, dominating every cell), the output
channels are exactly x = (x_int + 0.5) * (roi_width / resized_width) + x1,
y = (y_int + 0.5) * (roi_height / resized_height) + y1, the raw score at
(x_int, y_int), and the softmax probability at (x_int, y_int). -/
theorem heatmaps_to_keypoints_argmax_decode (expF : ℚ → ℚ)
    (resize : (ℕ → ℕ → ℕ → ℚ) → ℕ → ℕ → (ℕ → ℕ → ℕ → ℚ))
    (minSize : ℤ) (numK : ℕ) (maps : ℕ → ℕ → ℕ → ℕ → ℚ) (rois : List Roi)
    (i k : ℕ) (hi : i < rois.length) (hk : k < numK)
    (hw : 1 ≤ (rois.getD i default).x2 - (rois.getD i default).x1)
    (hh : 1 ≤ (rois.getD i default).y2 - (rois.getD i default).y1) :
    let roi := rois.getD i default
    let W := roiMapW minSize roi
    let H := roiMapH minSize roi
    let M := resize (maps i) W H
    let pos := argmaxFlat (H * W) (fun j => M k (j / W) (j % W))
    let xInt := pos % W
    let yInt := pos / W
    xInt < W ∧ yInt < H ∧
    (∀ y < H, ∀ x < W, M k y x ≤ M k yInt xInt) ∧
    heatmaps_to_keypoints expF resize minSize numK maps rois i 0 k =
      ((xInt : ℚ) + 1 / 2) * ((roi.x2 - roi.x1) / (W : ℚ)) + roi.x1 ∧
    heatmaps_to_keypoints expF resize minSize numK maps rois i 1 k =
      ((yInt : ℚ) + 1 / 2) * ((roi.y2 - roi.y1) / (H : ℚ)) + roi.y1 ∧
    heatmaps_to_keypoints expF resize minSize numK maps rois i 2 k =
      M k yInt xInt ∧
    heatmaps_to_keypoints expF resize minSize numK maps rois i 3 k =
      scores_to_probs expF H W M k yInt xInt := by
  intro roi W H M pos xInt yInt
  have hWpos : 0 < W := roiMapW_pos minSize roi
  have hHpos : 0 < H := roiMapH_pos minSize roi
  have hHW : 0 < H * W := Nat.mul_pos hHpos hWpos
  have hposlt : pos < H * W := argmaxFlat_lt _ _ hHW
  have hx : xInt < W := Nat.mod_lt _ hWpos
  have hy : yInt < H := (Nat.div_lt_iff_lt_mul hWpos).mpr hposlt
  have hsub : (pos - pos % W) / W = pos / W := sub_mod_div pos W
  have hwidth : h2k_width roi = roi.x2 - roi.x1 := max_eq_left hw
  have hheight : h2k_height roi = roi.y2 - roi.y1 := max_eq_left hh
  have hshape : i < rois.length ∧ 0 < 4 ∧ k < numK := ⟨hi, by omega, hk⟩
  refine ⟨hx, hy, ?_, ?_, ?_, ?_, ?_⟩
  · intro y hy2 x hx2
    have hj : y * W + x < H * W := by
      have : y * W + x < (y + 1) * W := by
        have := hx2
        ring_nf
        omega
      have h2 : (y + 1) * W ≤ H * W := Nat.mul_le_mul_right _ (by omega)
      omega
    have hle := argmaxFlat_le (H * W) (fun j => M k (j / W) (j % W)) (y * W + x) hj
    have hd := flat_index_decomp y x W hx2
    simpa only [hd.1, hd.2] using hle
  · have e0 : heatmaps_to_keypoints expF resize minSize numK maps rois i 0 k =
        ((xInt : ℚ) + 1 / 2) * (h2k_width roi / (W : ℚ)) + roi.x1 := by
      unfold heatmaps_to_keypoints
      rw [if_pos hshape]
      rfl
    rw [e0, hwidth]
  · have hsub1 : (pos - xInt) / W = yInt := hsub
    have e1 : heatmaps_to_keypoints expF resize minSize numK maps rois i 1 k =
        ((((pos - xInt) / W : ℕ) : ℚ) + 1 / 2) * (h2k_height roi / (H : ℚ)) +
          roi.y1 := by
      unfold heatmaps_to_keypoints
      rw [if_pos ⟨hi, by omega, hk⟩]
      rfl
    rw [e1, hsub1, hheight]
  · have hsub1 : (pos - xInt) / W = yInt := hsub
    have e2 : heatmaps_to_keypoints expF resize minSize numK maps rois i 2 k =
        M k ((pos - xInt) / W) xInt := by
      unfold heatmaps_to_keypoints
      rw [if_pos ⟨hi, by omega, hk⟩]
      rfl
    rw [e2, hsub1]
  · have hsub1 : (pos - xInt) / W = yInt := hsub
    have e3 : heatmaps_to_keypoints expF resize minSize numK maps rois i 3 k =
        scores_to_probs expF H W M k ((pos - xInt) / W) xInt := by
      unfold heatmaps_to_keypoints
      rw [if_pos ⟨hi, by omega, hk⟩]
      rfl
    rw [e3, hsub1]

/-- Witness for C3 at a concrete 1-ROI input with min_size 3 and a concrete
resize collaborator. -/
theorem heatmaps_to_keypoints_argmax_decode_witness :
    0 < ([(⟨0, 0, 2, 2⟩ : Roi)] : List Roi).length ∧
    (let roi := ([(⟨0, 0, 2, 2⟩ : Roi)] : List Roi).getD 0 default
     let W := roiMapW 3 roi
     let H := roiMapH 3 roi
     let M := resizeLin (mapsZero 0) W H
     let pos := argmaxFlat (H * W) (fun j => M 0 (j / W) (j % W))
     let xInt := pos % W
     let yInt := pos / W
     xInt < W ∧ yInt < H ∧
     (∀ y < H, ∀ x < W, M 0 y x ≤ M 0 yInt xInt) ∧
     heatmaps_to_keypoints id resizeLin 3 17 mapsZero [⟨0, 0, 2, 2⟩] 0 0 0 =
       ((xInt : ℚ) + 1 / 2) * ((roi.x2 - roi.x1) / (W : ℚ)) + roi.x1 ∧
     heatmaps_to_keypoints id resizeLin 3 17 mapsZero [⟨0, 0, 2, 2⟩] 0 1 0 =
       ((yInt : ℚ) + 1 / 2) * ((roi.y2 - roi.y1) / (H : ℚ)) + roi.y1 ∧
     heatmaps_to_keypoints id resizeLin 3 17 mapsZero [⟨0, 0, 2, 2⟩] 0 2 0 =
       M 0 yInt xInt ∧
     heatmaps_to_keypoints id resizeLin 3 17 mapsZero [⟨0, 0, 2, 2⟩] 0 3 0 =
       scores_to_probs id H W M 0 yInt xInt) :=
  ⟨by norm_num,
   heatmaps_to_keypoints_argmax_decode id resizeLin 3 17 mapsZero
     [⟨0, 0, 2, 2⟩] 0 0 (by norm_num) (by norm_num)
     (by norm_num [List.getD]) (by norm_num [List.getD])⟩

/-- Helper: splitting a range sum into a prefix and a shifted block. -/
theorem sumR_add (n m : ℕ) (f : ℕ → ℚ) :
    sumR (n + m) f = sumR n f + sumR m (fun j => f (n + j)) := by
  induction m with
  | zero => simp [sumR]
  | succ m ih =>
    have e1 : sumR (n + (m + 1)) f = sumR (n + m) f + f (n + m) := by
      show sumR ((n + m) + 1) f = _
      unfold sumR
      rw [Finset.sum_range_succ]
    have e2 : sumR (m + 1) (fun j => f (n + j)) =
        sumR m (fun j => f (n + j)) + f (n + m) := by
      unfold sumR
      rw [Finset.sum_range_succ]
    rw [e1, e2, ih]
    ring

/-- Helper: a sum over a 2D row-major flattening equals the nested sum. -/
theorem sumR_block (h w : ℕ) (g : ℕ → ℚ) :
    sumR (h * w) g = sumR h (fun y => sumR w (fun x => g (y * w + x))) := by
  induction h with
  | zero => simp [sumR]
  | succ h ih =>
    have e1 : (h + 1) * w = h * w + w := by ring
    rw [e1, sumR_add, ih]
    have e2 : sumR (h + 1) (fun y => sumR w (fun x => g (y * w + x))) =
        sumR h (fun y => sumR w (fun x => g (y * w + x))) +
          sumR w (fun x => g (h * w + x)) := by
      unfold sumR
      rw [Finset.sum_range_succ]
    rw [e2]

/-- Helper: a row-major flat index built from in-range coordinates is in
range. -/
theorem flat_lt (y x h w : ℕ) (hy : y < h) (hx : x < w) : y * w + x < h * w := by
  have h1 : (y + 1) * w ≤ h * w := Nat.mul_le_mul_right w (by omega)
  have h2 : (y + 1) * w = y * w + w := by ring
  omega

/-- Helper: coordinate recovery from a 3D row-major flat index. -/
theorem flat3_decomp (z y x h w : ℕ) (hx : x < w) (hy : y < h) :
    (z * (h * w) + y * w + x) % w = x ∧
    (z * (h * w) + y * w + x) / w % h = y ∧
    (z * (h * w) + y * w + x) / (h * w) = z := by
  have e1 : z * (h * w) + y * w + x = (z * h + y) * w + x := by ring
  have d1 := flat_index_decomp (z * h + y) x w hx
  refine ⟨by rw [e1]; exact d1.2, ?_, ?_⟩
  · rw [e1, d1.1]
    have e2 : z * h + y = y + z * h := by ring
    rw [e2, Nat.add_mul_mod_self_right]
    exact Nat.mod_eq_of_lt hy
  · have hr : y * w + x < h * w := flat_lt y x h w hy hx
    have e3 : z * (h * w) + y * w + x = (y * w + x) + z * (h * w) := by ring
    have hhw : 0 < h * w := lt_of_le_of_lt (Nat.zero_le _) hr
    rw [e3, Nat.add_mul_div_right _ _ hhw, Nat.div_eq_of_lt hr]
    omega

/-- Helper: swapping a double sum and factoring out a weight that depends
only on the inner index. -/
theorem sumR_comm_weight (n m : ℕ) (wt : ℕ → ℚ) (q : ℕ → ℕ → ℚ) :
    sumR n (fun a => sumR m (fun b => wt b * q a b)) =
      sumR m (fun b => wt b * sumR n (fun a => q a b)) := by
  unfold sumR
  rw [Finset.sum_comm]
  refine Finset.sum_congr rfl fun b _ => ?_
  show (∑ a in Finset.range n, wt b * q a b) = wt b * ∑ a in Finset.range n, q a b
  rw [Finset.mul_sum]

/-- Helper: factoring out a weight that depends only on the outer index. -/
theorem sumR_factor (n m : ℕ) (wt : ℕ → ℚ) (q : ℕ → ℕ → ℚ) :
    sumR n (fun a => sumR m (fun b => wt a * q a b)) =
      sumR n (fun a => wt a * sumR m (fun b => q a b)) := by
  unfold sumR
  refine Finset.sum_congr rfl fun a _ => ?_
  show (∑ b in Finset.range m, wt a * q a b) = wt a * ∑ b in Finset.range m, q a b
  rw [Finset.mul_sum]

/-- Helper: the softmax over a nonempty extent sums to 1 when the abstract
exponential is positive. -/
theorem softmaxFlat_sum_one (expF : ℚ → ℚ) (E : ℕ) (t : ℕ → ℚ)
    (hE : 0 < E) (hpos : ∀ q, 0 < expF q) :
    sumR E (softmaxFlat expF E t) = 1 := by
  have hS : 0 < sumR E (fun j => expF (t j)) := by
    unfold sumR
    exact Finset.sum_pos (fun j _ => hpos (t j))
      (Finset.nonempty_range_iff.mpr (by omega))
  have h2 : sumR E (softmaxFlat expF E t) =
      sumR E (fun j => expF (t j)) / sumR E (fun j => expF (t j)) := by
    unfold softmaxFlat sumR
    rw [← Finset.sum_div]
  rw [h2]
  exact div_self (ne_of_gt hS)

/-- Helper: the 2D x marginal weighted by index values equals the expectation
of the x coordinate of the flat index. -/
theorem expectation_x_2d (w h : ℕ) (p : ℕ → ℚ) :
    sumR (h * w) (fun j => ((j % w : ℕ) : ℚ) * p j) =
      sumR w (fun x => (x : ℚ) * sumR h (fun y => p (y * w + x))) := by
  rw [sumR_block h w]
  have e1 : sumR h (fun y => sumR w (fun x =>
      (((y * w + x) % w : ℕ) : ℚ) * p (y * w + x))) =
      sumR h (fun y => sumR w (fun x => (x : ℚ) * p (y * w + x))) := by
    unfold sumR
    beta_reduce
    refine Finset.sum_congr rfl fun y _ => ?_
    beta_reduce
    refine Finset.sum_congr rfl fun x hx => ?_
    beta_reduce
    rw [(flat_index_decomp y x w (Finset.mem_range.mp hx)).2]
  rw [e1]
  exact sumR_comm_weight h w (fun x => (x : ℚ)) (fun y x => p (y * w + x))

/-- Helper: the 2D y marginal weighted by index values equals the expectation
of the y coordinate of the flat index. -/
theorem expectation_y_2d (w h : ℕ) (p : ℕ → ℚ) :
    sumR (h * w) (fun j => ((j / w : ℕ) : ℚ) * p j) =
      sumR h (fun y => (y : ℚ) * sumR w (fun x => p (y * w + x))) := by
  rw [sumR_block h w]
  have e1 : sumR h (fun y => sumR w (fun x =>
      (((y * w + x) / w : ℕ) : ℚ) * p (y * w + x))) =
      sumR h (fun y => sumR w (fun x => (y : ℚ) * p (y * w + x))) := by
    unfold sumR
    beta_reduce
    refine Finset.sum_congr rfl fun y _ => ?_
    beta_reduce
    refine Finset.sum_congr rfl fun x hx => ?_
    beta_reduce
    rw [(flat_index_decomp y x w (Finset.mem_range.mp hx)).1]
  rw [e1]
  exact sumR_factor h w (fun y => (y : ℚ)) (fun y x => p (y * w + x))

/-- Helper: the 3D x marginal (sum over depth then rows, in the source's
order) weighted by index values equals the expectation of the x coordinate. -/
theorem expectation_x_3d (w h d : ℕ) (p : ℕ → ℚ) :
    sumR (d * (h * w)) (fun j => ((j % w : ℕ) : ℚ) * p j) =
      sumR w (fun x => (x : ℚ) * sumR h (fun y => sumR d (fun z =>
        p (z * (h * w) + y * w + x)))) := by
  rw [sumR_block d (h * w)]
  have e1 : sumR d (fun z => sumR (h * w) (fun r =>
      (((z * (h * w) + r) % w : ℕ) : ℚ) * p (z * (h * w) + r))) =
      sumR d (fun z => sumR h (fun y => sumR w (fun x =>
        (x : ℚ) * p (z * (h * w) + y * w + x)))) := by
    unfold sumR
    beta_reduce
    refine Finset.sum_congr rfl fun z _ => ?_
    beta_reduce
    have e2 := sumR_block h w (fun r =>
      (((z * (h * w) + r) % w : ℕ) : ℚ) * p (z * (h * w) + r))
    unfold sumR at e2
    beta_reduce at e2
    rw [e2]
    refine Finset.sum_congr rfl fun y hy => ?_
    beta_reduce
    refine Finset.sum_congr rfl fun x hx => ?_
    beta_reduce
    have hx2 := Finset.mem_range.mp hx
    have hy2 := Finset.mem_range.mp hy
    have ha : z * (h * w) + (y * w + x) = z * (h * w) + y * w + x := by omega
    rw [ha, (flat3_decomp z y x h w hx2 hy2).1]
  rw [e1]
  have e3 : sumR d (fun z => sumR h (fun y => sumR w (fun x =>
      (x : ℚ) * p (z * (h * w) + y * w + x)))) =
      sumR d (fun z => sumR w (fun x => (x : ℚ) * sumR h (fun y =>
        p (z * (h * w) + y * w + x)))) := by
    unfold sumR
    beta_reduce
    refine Finset.sum_congr rfl fun z _ => ?_
    beta_reduce
    have e4 := sumR_comm_weight h w (fun x => (x : ℚ))
      (fun y x => p (z * (h * w) + y * w + x))
    unfold sumR at e4
    beta_reduce at e4
    exact e4
  rw [e3]
  have e5 := sumR_comm_weight d w (fun x => (x : ℚ))
    (fun z x => sumR h (fun y => p (z * (h * w) + y * w + x)))
  rw [e5]
  unfold sumR
  beta_reduce
  refine Finset.sum_congr rfl fun x _ => ?_
  beta_reduce
  congr 1
  exact Finset.sum_comm

/-- Helper: the 3D y marginal weighted by index values equals the expectation
of the y coordinate. -/
theorem expectation_y_3d (w h d : ℕ) (p : ℕ → ℚ) :
    sumR (d * (h * w)) (fun j => ((j / w % h : ℕ) : ℚ) * p j) =
      sumR h (fun y => (y : ℚ) * sumR w (fun x => sumR d (fun z =>
        p (z * (h * w) + y * w + x)))) := by
  rw [sumR_block d (h * w)]
  have e1 : sumR d (fun z => sumR (h * w) (fun r =>
      (((z * (h * w) + r) / w % h : ℕ) : ℚ) * p (z * (h * w) + r))) =
      sumR d (fun z => sumR h (fun y => (y : ℚ) * sumR w (fun x =>
        p (z * (h * w) + y * w + x)))) := by
    unfold sumR
    beta_reduce
    refine Finset.sum_congr rfl fun z _ => ?_
    beta_reduce
    have e2 := sumR_block h w (fun r =>
      (((z * (h * w) + r) / w % h : ℕ) : ℚ) * p (z * (h * w) + r))
    unfold sumR at e2
    beta_reduce at e2
    rw [e2]
    have e6 : (∑ y in Finset.range h, ∑ x in Finset.range w,
        (((z * (h * w) + (y * w + x)) / w % h : ℕ) : ℚ) *
          p (z * (h * w) + (y * w + x))) =
        ∑ y in Finset.range h, ∑ x in Finset.range w,
          (y : ℚ) * p (z * (h * w) + y * w + x) := by
      refine Finset.sum_congr rfl fun y hy => ?_
      beta_reduce
      refine Finset.sum_congr rfl fun x hx => ?_
      beta_reduce
      have hx2 := Finset.mem_range.mp hx
      have hy2 := Finset.mem_range.mp hy
      have ha : z * (h * w) + (y * w + x) = z * (h * w) + y * w + x := by omega
      rw [ha, (flat3_decomp z y x h w hx2 hy2).2.1]
    rw [e6]
    have e7 := sumR_factor h w (fun y => (y : ℚ))
      (fun y x => p (z * (h * w) + y * w + x))
    unfold sumR at e7
    beta_reduce at e7
    exact e7
  rw [e1]
  have e8 := sumR_comm_weight d h (fun y => (y : ℚ))
    (fun z y => sumR w (fun x => p (z * (h * w) + y * w + x)))
  unfold sumR at e8
  beta_reduce at e8
  unfold sumR
  beta_reduce
  rw [e8]
  refine Finset.sum_congr rfl fun y _ => ?_
  beta_reduce
  congr 1
  exact Finset.sum_comm

/-- Helper: the 3D z marginal weighted by index values equals the expectation
of the z coordinate. -/
theorem expectation_z_3d (w h d : ℕ) (p : ℕ → ℚ) :
    sumR (d * (h * w)) (fun j => ((j / (h * w) : ℕ) : ℚ) * p j) =
      sumR d (fun z => (z : ℚ) * sumR w (fun x => sumR h (fun y =>
        p (z * (h * w) + y * w + x)))) := by
  rw [sumR_block d (h * w)]
  have e1 : sumR d (fun z => sumR (h * w) (fun r =>
      (((z * (h * w) + r) / (h * w) : ℕ) : ℚ) * p (z * (h * w) + r))) =
      sumR d (fun z => (z : ℚ) * sumR h (fun y => sumR w (fun x =>
        p (z * (h * w) + y * w + x)))) := by
    unfold sumR
    beta_reduce
    refine Finset.sum_congr rfl fun z _ => ?_
    beta_reduce
    have e2 := sumR_block h w (fun r =>
      (((z * (h * w) + r) / (h * w) : ℕ) : ℚ) * p (z * (h * w) + r))
    unfold sumR at e2
    beta_reduce at e2
    rw [e2]
    have e6 : (∑ y in Finset.range h, ∑ x in Finset.range w,
        (((z * (h * w) + (y * w + x)) / (h * w) : ℕ) : ℚ) *
          p (z * (h * w) + (y * w + x))) =
        ∑ y in Finset.range h, ∑ x in Finset.range w,
          (z : ℚ) * p (z * (h * w) + y * w + x) := by
      refine Finset.sum_congr rfl fun y hy => ?_
      beta_reduce
      refine Finset.sum_congr rfl fun x hx => ?_
      beta_reduce
      have hx2 := Finset.mem_range.mp hx
      have hy2 := Finset.mem_range.mp hy
      have ha : z * (h * w) + (y * w + x) = z * (h * w) + y * w + x := by omega
      rw [ha, (flat3_decomp z y x h w hx2 hy2).2.2]
    rw [e6]
    show (∑ y in Finset.range h, ∑ x in Finset.range w,
        (z : ℚ) * p (z * (h * w) + y * w + x)) =
      (z : ℚ) * ∑ y in Finset.range h, ∑ x in Finset.range w,
        p (z * (h * w) + y * w + x)
    rw [Finset.mul_sum]
    refine Finset.sum_congr rfl fun y _ => ?_
    beta_reduce
    rw [Finset.mul_sum]
  rw [e1]
  unfold sumR
  beta_reduce
  refine Finset.sum_congr rfl fun z _ => ?_
  beta_reduce
  congr 1
  exact Finset.sum_comm

/-- Claim C4: softmax_integral_tensor first applies softmax over each joint's
full spatial (or spatial + depth) extent, producing a mass that sums to 1,
and then returns each coordinate axis as the expectation of that axis's
discrete index under this probability mass; the 2D and 3D modes use this same
expectation, 3D additionally producing a depth coordinate, and no ROI
remapping is applied to the result. -/
theorem softmax_integral_tensor_expectation (expF : ℚ → ℚ) (w h d : ℕ)
    (t : ℕ → ℚ) (hpos : ∀ q, 0 < expF q) (hw : 0 < w) (hh : 0 < h)
    (hd : 0 < d) :
    (sumR (h * w) (softmaxFlat expF (h * w) t) = 1 ∧
     sumR (d * (h * w)) (softmaxFlat expF (d * (h * w)) t) = 1) ∧
    (softmax_integral_tensor expF w h none t 0 =
      sumR (h * w) (fun j =>
        ((j % w : ℕ) : ℚ) * softmaxFlat expF (h * w) t j) ∧
     softmax_integral_tensor expF w h none t 1 =
      sumR (h * w) (fun j =>
        ((j / w : ℕ) : ℚ) * softmaxFlat expF (h * w) t j)) ∧
    (softmax_integral_tensor expF w h (some d) t 0 =
      sumR (d * (h * w)) (fun j =>
        ((j % w : ℕ) : ℚ) * softmaxFlat expF (d * (h * w)) t j) ∧
     softmax_integral_tensor expF w h (some d) t 1 =
      sumR (d * (h * w)) (fun j =>
        ((j / w % h : ℕ) : ℚ) * softmaxFlat expF (d * (h * w)) t j) ∧
     softmax_integral_tensor expF w h (some d) t 2 =
      sumR (d * (h * w)) (fun j =>
        ((j / (h * w) : ℕ) : ℚ) * softmaxFlat expF (d * (h * w)) t j)) := by
  refine ⟨⟨softmaxFlat_sum_one expF (h * w) t (Nat.mul_pos hh hw) hpos,
           softmaxFlat_sum_one expF (d * (h * w)) t
             (Nat.mul_pos hd (Nat.mul_pos hh hw)) hpos⟩,
         ⟨?_, ?_⟩, ⟨?_, ?_, ?_⟩⟩
  · exact (expectation_x_2d w h (softmaxFlat expF (h * w) t)).symm
  · exact (expectation_y_2d w h (softmaxFlat expF (h * w) t)).symm
  · exact (expectation_x_3d w h d (softmaxFlat expF (d * (h * w)) t)).symm
  · exact (expectation_y_3d w h d (softmaxFlat expF (d * (h * w)) t)).symm
  · exact (expectation_z_3d w h d (softmaxFlat expF (d * (h * w)) t)).symm

/-- Witness for C4 at a concrete 2 x 2 x 2 heatmap with a constant positive
abstract exponential. -/
theorem softmax_integral_tensor_expectation_witness :
    (0 : ℕ) < 2 ∧ (∀ q : ℚ, 0 < (fun _ : ℚ => (1 : ℚ)) q) ∧
    ((sumR (2 * 2) (softmaxFlat (fun _ => 1) (2 * 2) (fun j => (j : ℚ))) = 1 ∧
      sumR (2 * (2 * 2))
        (softmaxFlat (fun _ => 1) (2 * (2 * 2)) (fun j => (j : ℚ))) = 1) ∧
     (softmax_integral_tensor (fun _ => 1) 2 2 none (fun j => (j : ℚ)) 0 =
       sumR (2 * 2) (fun j => ((j % 2 : ℕ) : ℚ) *
         softmaxFlat (fun _ => 1) (2 * 2) (fun j => (j : ℚ)) j) ∧
      softmax_integral_tensor (fun _ => 1) 2 2 none (fun j => (j : ℚ)) 1 =
       sumR (2 * 2) (fun j => ((j / 2 : ℕ) : ℚ) *
         softmaxFlat (fun _ => 1) (2 * 2) (fun j => (j : ℚ)) j)) ∧
     (softmax_integral_tensor (fun _ => 1) 2 2 (some 2) (fun j => (j : ℚ)) 0 =
       sumR (2 * (2 * 2)) (fun j => ((j % 2 : ℕ) : ℚ) *
         softmaxFlat (fun _ => 1) (2 * (2 * 2)) (fun j => (j : ℚ)) j) ∧
      softmax_integral_tensor (fun _ => 1) 2 2 (some 2) (fun j => (j : ℚ)) 1 =
       sumR (2 * (2 * 2)) (fun j => ((j / 2 % 2 : ℕ) : ℚ) *
         softmaxFlat (fun _ => 1) (2 * (2 * 2)) (fun j => (j : ℚ)) j) ∧
      softmax_integral_tensor (fun _ => 1) 2 2 (some 2) (fun j => (j : ℚ)) 2 =
       sumR (2 * (2 * 2)) (fun j => ((j / (2 * 2) : ℕ) : ℚ) *
         softmaxFlat (fun _ => 1) (2 * (2 * 2)) (fun j => (j : ℚ)) j))) :=
  ⟨by norm_num, fun _ => one_pos,
   softmax_integral_tensor_expectation (fun _ => 1) 2 2 2 (fun j => (j : ℚ))
     (fun _ => one_pos) (by norm_num) (by norm_num) (by norm_num)⟩

/-- Helper: the greedy loop keeps a subsequence of the pending order. -/
theorem nmsLoop_sublist (expF : ℚ → ℚ) (preds : ℕ → ℕ → ℕ → ℚ)
    (rois : ℕ → Roi) (thresh : ℚ) :
    ∀ l : List ℕ, List.Sublist (nmsLoop expF preds rois thresh l) l
  | [] => by
    rw [nmsLoop]
  | i :: rest => by
    rw [nmsLoop]
    exact List.Sublist.cons₂ i
      ((nmsLoop_sublist expF preds rois thresh _).trans
        (List.filter_sublist _))
termination_by l => l.length
decreasing_by
  simp only [List.length_cons]
  exact Nat.lt_succ_of_le (List.length_filter_le _ _)

/-- Helper: insertion preserves the multiset of indices. -/
theorem insertDesc_perm (s : ℕ → ℚ) (i : ℕ) :
    ∀ l : List ℕ, (insertDesc s i l).Perm (i :: l) := by
  intro l
  induction l with
  | nil => exact List.Perm.refl _
  | cons j rest ih =>
    show (if s j < s i then i :: j :: rest else j :: insertDesc s i rest).Perm _
    by_cases hc : s j < s i
    · rw [if_pos hc]
    · rw [if_neg hc]
      exact (List.Perm.cons j ih).trans (List.Perm.swap i j rest)

/-- Helper: the descending sort is a permutation of its input. -/
theorem sortDesc_perm (s : ℕ → ℚ) :
    ∀ l : List ℕ, (sortDesc s l).Perm l := by
  intro l
  induction l with
  | nil => exact List.Perm.refl _
  | cons i rest ih =>
    show (insertDesc s i (sortDesc s rest)).Perm (i :: rest)
    exact (insertDesc_perm s i (sortDesc s rest)).trans (List.Perm.cons i ih)

/-- Helper: a nonempty descending sort starts with a score maximizer. -/
theorem sortDesc_head_max (s : ℕ → ℚ) :
    ∀ l : List ℕ, l ≠ [] →
      ∃ m t, sortDesc s l = m :: t ∧ ∀ j ∈ l, s j ≤ s m := by
  intro l
  induction l with
  | nil => intro h; exact absurd rfl h
  | cons i rest ih =>
    intro _
    by_cases hr : rest = []
    · subst hr
      exact ⟨i, [], rfl, by simp⟩
    · obtain ⟨m, t, hmt, hall⟩ := ih hr
      by_cases hc : s m < s i
      · refine ⟨i, m :: t, ?_, ?_⟩
        · show insertDesc s i (sortDesc s rest) = i :: m :: t
          rw [hmt]
          show (if s m < s i then i :: m :: t else m :: insertDesc s i t) = _
          rw [if_pos hc]
        · intro j hj
          rcases List.mem_cons.mp hj with h | h
          · rw [h]
          · exact le_trans (hall j h) (le_of_lt hc)
      · refine ⟨m, insertDesc s i t, ?_, ?_⟩
        · show insertDesc s i (sortDesc s rest) = m :: insertDesc s i t
          rw [hmt]
          show (if s m < s i then i :: m :: t else m :: insertDesc s i t) = _
          rw [if_neg hc]
        · intro j hj
          rcases List.mem_cons.mp hj with h | h
          · rw [h]
            exact le_of_not_lt hc
          · exact hall j h

/-- Claim C6: nms_oks sorts instances by mean per-joint score descending and
greedily keeps the highest-scoring pending instance while dropping every
pending instance whose OKS to it exceeds the threshold; the kept list is a
subsequence of the descending-score order (acceptance order), its head is a
score maximizer, and two poses whose mutual OKS does not exceed the threshold
are both kept. -/
theorem nms_oks_greedy (expF : ℚ → ℚ) (preds : ℕ → ℕ → ℕ → ℚ)
    (rois : ℕ → Roi) (n : ℕ) (thresh : ℚ) :
    (∀ i rest, nmsLoop expF preds rois thresh (i :: rest) =
      i :: nmsLoop expF preds rois thresh (rest.filter fun j =>
        decide (compute_oks expF (preds i) (rois i) preds rois j ≤ thresh))) ∧
    List.Sublist (nms_oks expF preds rois n thresh)
      (argsortDesc n (fun i => poseScore (preds i))) ∧
    (0 < n → ∃ i t, nms_oks expF preds rois n thresh = i :: t ∧ i < n ∧
      ∀ j < n, poseScore (preds j) ≤ poseScore (preds i)) ∧
    (n = 2 → compute_oks expF (preds 0) (rois 0) preds rois 1 ≤ thresh →
      compute_oks expF (preds 1) (rois 1) preds rois 0 ≤ thresh →
      nms_oks expF preds rois n thresh = [0, 1] ∨
        nms_oks expF preds rois n thresh = [1, 0]) := by
  have hunf : ∀ i rest, nmsLoop expF preds rois thresh (i :: rest) =
      i :: nmsLoop expF preds rois thresh (rest.filter fun j =>
        decide (compute_oks expF (preds i) (rois i) preds rois j ≤ thresh)) :=
    fun i rest => by rw [nmsLoop]
  have hnil : nmsLoop expF preds rois thresh [] = [] := by rw [nmsLoop]
  refine ⟨hunf, nmsLoop_sublist _ _ _ _ _, ?_, ?_⟩
  · intro hn
    have hne : List.range n ≠ [] := by
      intro h
      have h2 := List.length_range n
      rw [h] at h2
      simp at h2
      omega
    obtain ⟨m, t, hmt, hall⟩ :=
      sortDesc_head_max (fun i => poseScore (preds i)) (List.range n) hne
    have hm_mem : m ∈ List.range n := by
      have hperm := sortDesc_perm (fun i => poseScore (preds i)) (List.range n)
      rw [hmt] at hperm
      exact hperm.mem_iff.mp (List.mem_cons_self m t)
    refine ⟨m, nmsLoop expF preds rois thresh (t.filter fun j =>
      decide (compute_oks expF (preds m) (rois m) preds rois j ≤ thresh)),
      ?_, List.mem_range.mp hm_mem, ?_⟩
    · show nmsLoop expF preds rois thresh
        (sortDesc (fun i => poseScore (preds i)) (List.range n)) = _
      rw [hmt, hunf m t]
    · intro j hj
      exact hall j (List.mem_range.mpr hj)
  · intro hn h01 h10
    subst hn
    have hsort : argsortDesc 2 (fun i => poseScore (preds i)) =
        if poseScore (preds 1) < poseScore (preds 0) then [0, 1]
        else [1, 0] := rfl
    by_cases hc : poseScore (preds 1) < poseScore (preds 0)
    · left
      show nmsLoop expF preds rois thresh
        (argsortDesc 2 (fun i => poseScore (preds i))) = [0, 1]
      rw [hsort, if_pos hc, hunf 0 [1]]
      have hf : List.filter (fun j =>
          decide (compute_oks expF (preds 0) (rois 0) preds rois j ≤ thresh))
          [1] = [1] := by
        simp [List.filter, h01]
      rw [hf, hunf 1 [], List.filter_nil, hnil]
    · right
      show nmsLoop expF preds rois thresh
        (argsortDesc 2 (fun i => poseScore (preds i))) = [1, 0]
      rw [hsort, if_neg hc, hunf 1 [0]]
      have hf : List.filter (fun j =>
          decide (compute_oks expF (preds 1) (rois 1) preds rois j ≤ thresh))
          [0] = [0] := by
        simp [List.filter, h10]
      rw [hf, hunf 0 [], List.filter_nil, hnil]

/-- Witness for C6: with a constant-zero abstract exponential every OKS is 0,
so a concrete two-pose batch with threshold 0 keeps both poses. -/
theorem nms_oks_greedy_witness :
    nms_oks (fun _ => 0) predsTwo roisTwo 2 0 = [0, 1] ∨
      nms_oks (fun _ => 0) predsTwo roisTwo 2 0 = [1, 0] := by
  have h01 : compute_oks (fun _ => 0) (predsTwo 0) (roisTwo 0) predsTwo
      roisTwo 1 ≤ 0 := by
    simp [compute_oks, sumR]
  have h10 : compute_oks (fun _ => 0) (predsTwo 1) (roisTwo 1) predsTwo
      roisTwo 0 ≤ 0 := by
    simp [compute_oks, sumR]
  exact (nms_oks_greedy (fun _ => 0) predsTwo roisTwo 2 0).2.2.2 rfl h01 h10

/-- Helper: unpacking the pair-disjointness invariant at a cons. -/
theorem validPairs_cons (p : ℕ × ℕ) (ps : List (ℕ × ℕ))
    (h : validPairs (p :: ps)) :
    p.1 ≠ p.2 ∧ p.1 ∉ ps.flatMap (fun pr => [pr.1, pr.2]) ∧
    p.2 ∉ ps.flatMap (fun pr => [pr.1, pr.2]) ∧ validPairs ps := by
  unfold validPairs at h ⊢
  simp only [List.flatMap_cons, List.cons_append, List.nil_append,
    List.nodup_cons, List.mem_cons] at h
  obtain ⟨h1, h2, h3⟩ := h
  exact ⟨fun he => h1 (Or.inl he), fun hm => h1 (Or.inr hm), h2, h3⟩

/-- Helper: the swap loop writes each joint column from the original array at
the partner index given by the first pair mentioning it. -/
theorem foldl_swapPair (orig : Kps) :
    ∀ (pairs : List (ℕ × ℕ)) (acc : Kps), validPairs pairs → ∀ i c j,
      (pairs.foldl (swapPair orig) acc) i c j =
        (match pairs.find? (mentions j) with
         | some pr => orig i c (if pr.1 = j then pr.2 else pr.1)
         | none => acc i c j) := by
  intro pairs
  induction pairs with
  | nil =>
    intro acc _ i c j
    rfl
  | cons p ps ih =>
    intro acc hv i c j
    obtain ⟨hne, h1, h2, hps⟩ := validPairs_cons p ps hv
    rw [List.foldl_cons, ih (swapPair orig acc p) hps i c j]
    by_cases hm : mentions j p = true
    · have hmor : p.1 = j ∨ p.2 = j := by
        unfold mentions at hm
        simpa using hm
      have hfind : ps.find? (mentions j) = none := by
        cases hf : ps.find? (mentions j) with
        | none => rfl
        | some q =>
          exfalso
          have hq := List.find?_some hf
          have hqmem := List.mem_of_find?_eq_some hf
          have hqor : q.1 = j ∨ q.2 = j := by
            unfold mentions at hq
            simpa using hq
          have hjmem : j ∈ ps.flatMap (fun pr => [pr.1, pr.2]) := by
            rcases hqor with h | h
            · exact List.mem_flatMap.mpr ⟨q, hqmem, by simp [← h]⟩
            · exact List.mem_flatMap.mpr ⟨q, hqmem, by simp [← h]⟩
          rcases hmor with h | h
          · exact h1 (by rw [h]; exact hjmem)
          · exact h2 (by rw [h]; exact hjmem)
      rw [hfind, List.find?_cons_of_pos _ hm]
      show swapPair orig acc p i c j = orig i c (if p.1 = j then p.2 else p.1)
      unfold swapPair writeJoint
      rcases hmor with h | h
      · have hj2 : ¬(j = p.2) := fun he => hne (h.trans he)
        rw [if_neg hj2, if_pos h.symm, if_pos h]
      · by_cases hj1 : p.1 = j
        · exact absurd (hj1.trans h.symm) hne
        · rw [if_pos h.symm, if_neg hj1]
    · rw [List.find?_cons_of_neg _ hm]
      have hacc : swapPair orig acc p i c j = acc i c j := by
        unfold swapPair writeJoint
        have hj1 : ¬(j = p.1) := by
          intro he
          exact hm (by unfold mentions; simp [he])
        have hj2 : ¬(j = p.2) := by
          intro he
          exact hm (by unfold mentions; simp [he])
        rw [if_neg hj2, if_neg hj1]
      cases hf : ps.find? (mentions j) with
      | none => exact hacc
      | some q => rfl

/-- Helper: in a valid pair list, the unique pair mentioning an endpoint is
found first. -/
theorem find_mentions_unique :
    ∀ (pairs : List (ℕ × ℕ)), validPairs pairs → ∀ pr ∈ pairs, ∀ x,
      mentions x pr = true → pairs.find? (mentions x) = some pr := by
  intro pairs
  induction pairs with
  | nil =>
    intro _ pr hpr
    exact absurd hpr (List.not_mem_nil pr)
  | cons p ps ih =>
    intro hv pr hpr x hx
    obtain ⟨hne, h1, h2, hps⟩ := validPairs_cons p ps hv
    rcases List.mem_cons.mp hpr with h | h
    · subst h
      exact List.find?_cons_of_pos _ hx
    · have hx_in : x ∈ ps.flatMap (fun q => [q.1, q.2]) := by
        have hor : pr.1 = x ∨ pr.2 = x := by
          unfold mentions at hx
          simpa using hx
        rcases hor with he | he
        · exact List.mem_flatMap.mpr ⟨pr, h, by simp [← he]⟩
        · exact List.mem_flatMap.mpr ⟨pr, h, by simp [← he]⟩
      have hmp : ¬(mentions x p = true) := by
        intro hmp
        have hor : p.1 = x ∨ p.2 = x := by
          unfold mentions at hmp
          simpa using hmp
        rcases hor with he | he
        · exact h1 (by rw [he]; exact hx_in)
        · exact h2 (by rw [he]; exact hx_in)
      rw [List.find?_cons_of_neg _ hmp]
      exact ih hps pr h x hx

/-- Helper: each pair of a valid list has distinct endpoints. -/
theorem validPairs_ne :
    ∀ (pairs : List (ℕ × ℕ)), validPairs pairs → ∀ pr ∈ pairs, pr.1 ≠ pr.2 := by
  intro pairs
  induction pairs with
  | nil =>
    intro _ pr hpr
    exact absurd hpr (List.not_mem_nil pr)
  | cons p ps ih =>
    intro hv pr hpr
    obtain ⟨hne, _, _, hps⟩ := validPairs_cons p ps hv
    rcases List.mem_cons.mp hpr with h | h
    · rw [h]
      exact hne
    · exact ih hps pr h

/-- Helper: the joint permutation of a valid flip map is an involution. -/
theorem permOf_involution (pairs : List (ℕ × ℕ)) (hv : validPairs pairs)
    (j : ℕ) : permOf pairs (permOf pairs j) = j := by
  cases hf : pairs.find? (mentions j) with
  | none =>
    have e1 : permOf pairs j = j := by
      unfold permOf
      rw [hf]
    rw [e1, e1]
  | some pr =>
    have hpr_mem := List.mem_of_find?_eq_some hf
    have hpr_m := List.find?_some hf
    have hor : pr.1 = j ∨ pr.2 = j := by
      unfold mentions at hpr_m
      simpa using hpr_m
    have hne : pr.1 ≠ pr.2 := validPairs_ne pairs hv pr hpr_mem
    have e1 : permOf pairs j = if pr.1 = j then pr.2 else pr.1 := by
      unfold permOf
      rw [hf]
    by_cases hj1 : pr.1 = j
    · have e2 : permOf pairs pr.2 = pr.1 := by
        have hfind2 : pairs.find? (mentions pr.2) = some pr :=
          find_mentions_unique pairs hv pr hpr_mem pr.2
            (by unfold mentions; simp)
        unfold permOf
        rw [hfind2]
        show (if pr.1 = pr.2 then pr.2 else pr.1) = pr.1
        rw [if_neg hne]
      rw [e1, if_pos hj1, e2]
      exact hj1
    · have hj2 : pr.2 = j := by tauto
      have e2 : permOf pairs pr.1 = pr.2 := by
        have hfind2 : pairs.find? (mentions pr.1) = some pr :=
          find_mentions_unique pairs hv pr hpr_mem pr.1
            (by unfold mentions; simp)
        unfold permOf
        rw [hfind2]
        show (if pr.1 = pr.1 then pr.2 else pr.1) = pr.2
        rw [if_pos rfl]
      rw [e1, if_neg hj1, e2]
      exact hj2

/-- Helper: pointwise value of the swap stage in terms of the joint
permutation. -/
theorem swappedOf_eq (keypoints : List String)
    (fm : List (String × String)) (kps : Kps)
    (hv : validPairs (flipPairs keypoints fm)) (i c j : ℕ) :
    swappedOf keypoints fm kps i c j =
      kps i c (permOf (flipPairs keypoints fm) j) := by
  unfold swappedOf
  rw [foldl_swapPair kps (flipPairs keypoints fm) kps hv i c j]
  unfold permOf
  cases hf : (flipPairs keypoints fm).find? (mentions j) with
  | none => rfl
  | some pr => rfl

/-- Claim C9: applying flip_keypoints twice with the same width and schema
returns the original array, except that the x coordinate of any joint whose
visibility channel is 0 is forced to 0; in particular, on inputs already
obeying the convention that invisible joints have x = 0, the double flip is
the exact identity.  The flip map satisfies the data-model invariant that no
joint index appears in two pairs. -/
theorem flip_keypoints_involution (keypoints : List String)
    (fm : List (String × String)) (kps : Kps) (width : ℚ)
    (hvalid : validPairs (flipPairs keypoints fm)) :
    (∀ i c j, flip_keypoints keypoints fm
        (flip_keypoints keypoints fm kps width) width i c j =
      if c = 0 ∧ kps i 2 j = 0 then 0 else kps i c j) ∧
    ((∀ i j, kps i 2 j = 0 → kps i 0 j = 0) →
      ∀ i c j, flip_keypoints keypoints fm
        (flip_keypoints keypoints fm kps width) width i c j = kps i c j) := by
  have hsw : ∀ (a : Kps) (i c j : ℕ), swappedOf keypoints fm a i c j =
      a i c (permOf (flipPairs keypoints fm) j) :=
    fun a i c j => swappedOf_eq keypoints fm a hvalid i c j
  have hinv : ∀ j, permOf (flipPairs keypoints fm)
      (permOf (flipPairs keypoints fm) j) = j :=
    permOf_involution (flipPairs keypoints fm) hvalid
  have hm2 : ∀ (a : Kps) (i j : ℕ), mirroredOf keypoints fm a width i 2 j =
      a i 2 (permOf (flipPairs keypoints fm) j) := by
    intro a i j
    unfold mirroredOf
    rw [if_neg (by omega : ¬(2 : ℕ) = 0)]
    exact hsw a i 2 j
  have hm0 : ∀ (a : Kps) (i j : ℕ), mirroredOf keypoints fm a width i 0 j =
      width - a i 0 (permOf (flipPairs keypoints fm) j) - 1 := by
    intro a i j
    unfold mirroredOf
    rw [if_pos rfl, hsw a i 0 j]
  have hmc : ∀ (a : Kps) (i c j : ℕ), c ≠ 0 →
      mirroredOf keypoints fm a width i c j =
        a i c (permOf (flipPairs keypoints fm) j) := by
    intro a i c j hc
    unfold mirroredOf
    rw [if_neg hc]
    exact hsw a i c j
  have hf2 : ∀ (a : Kps) (i j : ℕ),
      flip_keypoints keypoints fm a width i 2 j =
        a i 2 (permOf (flipPairs keypoints fm) j) := by
    intro a i j
    unfold flip_keypoints
    rw [if_neg (by simp)]
    exact hm2 a i j
  have hfc : ∀ (a : Kps) (i c j : ℕ), c ≠ 0 →
      flip_keypoints keypoints fm a width i c j =
        a i c (permOf (flipPairs keypoints fm) j) := by
    intro a i c j hc
    unfold flip_keypoints
    rw [if_neg (fun hh => hc hh.1)]
    exact hmc a i c j hc
  have hf0 : ∀ (a : Kps) (i j : ℕ),
      flip_keypoints keypoints fm a width i 0 j =
        if a i 2 (permOf (flipPairs keypoints fm) j) = 0 then 0
        else width - a i 0 (permOf (flipPairs keypoints fm) j) - 1 := by
    intro a i j
    unfold flip_keypoints
    by_cases hv : mirroredOf keypoints fm a width i 2 j = 0
    · rw [if_pos ⟨rfl, hv⟩]
      rw [hm2] at hv
      rw [if_pos hv]
    · rw [if_neg (fun hh => hv hh.2)]
      rw [hm2] at hv
      rw [if_neg hv, hm0]
  have hmain : ∀ i c j, flip_keypoints keypoints fm
      (flip_keypoints keypoints fm kps width) width i c j =
      if c = 0 ∧ kps i 2 j = 0 then 0 else kps i c j := by
    intro i c j
    by_cases hc : c = 0
    · subst hc
      rw [hf0 (flip_keypoints keypoints fm kps width) i j]
      rw [hf2 kps i (permOf (flipPairs keypoints fm) j)]
      rw [hinv j]
      by_cases hv : kps i 2 j = 0
      · rw [if_pos hv, if_pos ⟨rfl, hv⟩]
      · rw [if_neg hv, if_neg (fun hh => hv hh.2)]
        rw [hf0 kps i (permOf (flipPairs keypoints fm) j)]
        rw [hinv j]
        rw [if_neg hv]
        ring
    · rw [hfc (flip_keypoints keypoints fm kps width) i c j hc,
        hfc kps i c (permOf (flipPairs keypoints fm) j) hc, hinv j]
      rw [if_neg (fun hh => hc hh.1)]
  refine ⟨hmain, fun hconv i c j => ?_⟩
  rw [hmain i c j]
  by_cases hcc : c = 0 ∧ kps i 2 j = 0
  · rw [if_pos hcc, hcc.1]
    exact (hconv i j hcc.2).symm
  · rw [if_neg hcc]

/-- Witness for C9 at the concrete two-joint schema with one flip pair. -/
theorem flip_keypoints_involution_witness :
    validPairs (flipPairs ["l", "r"] [("l", "r")]) ∧
    ((∀ i c j, flip_keypoints ["l", "r"] [("l", "r")]
        (flip_keypoints ["l", "r"] [("l", "r")] kpsSample 5) 5 i c j =
      if c = 0 ∧ kpsSample i 2 j = 0 then 0 else kpsSample i c j) ∧
     ((∀ i j, kpsSample i 2 j = 0 → kpsSample i 0 j = 0) →
      ∀ i c j, flip_keypoints ["l", "r"] [("l", "r")]
        (flip_keypoints ["l", "r"] [("l", "r")] kpsSample 5) 5 i c j =
        kpsSample i c j)) :=
  ⟨by decide,
   flip_keypoints_involution ["l", "r"] [("l", "r")] kpsSample 5 (by decide)⟩

/-- Helper: a store does not change other addresses. -/
theorem store_mem_other (h : Heap) (a : ℕ) (v : PyVal) (b : ℕ) (hb : b ≠ a) :
    (h.store a v).mem b = h.mem b := by
  unfold Heap.store
  simp [hb]

/-- Helper: reading a stored 3D array back. -/
theorem getArr3_store_same (h : Heap) (a : ℕ) (d : ℕ → ℕ → ℕ → ℚ) :
    getArr3 (h.store a (.arr3 d)) a = d := by
  unfold Heap.store getArr3
  simp

/-- Helper: an allocation does not change existing addresses. -/
theorem alloc_mem_other (h : Heap) (v : PyVal) (b : ℕ) (hb : b ≠ h.next) :
    (h.alloc v).1.mem b = h.mem b := by
  unfold Heap.alloc
  simp [hb]

/-- Helper: reading a freshly allocated 3D array back. -/
theorem getArr3_alloc (h : Heap) (d : ℕ → ℕ → ℕ → ℚ) :
    getArr3 (h.alloc (.arr3 d)).1 (h.alloc (.arr3 d)).2 = d := by
  unfold Heap.alloc getArr3
  simp

/-- Helper: the address returned by an allocation. -/
theorem alloc_snd (h : Heap) (v : PyVal) : (h.alloc v).2 = h.next := rfl

/-- Helper: the in-place swap loop of the heap model computes the pure swap
fold at the copy's address and leaves every other address unchanged. -/
theorem foldl_store_swap (orig : ℕ → ℕ → ℕ → ℚ) (nid : ℕ) :
    ∀ (ps : List (ℕ × ℕ)) (hh : Heap),
      getArr3 (ps.foldl (fun hh2 pr =>
        hh2.store nid (.arr3 (swapPair orig (getArr3 hh2 nid) pr))) hh) nid =
        ps.foldl (swapPair orig) (getArr3 hh nid) ∧
      (∀ b, b ≠ nid → (ps.foldl (fun hh2 pr =>
        hh2.store nid (.arr3 (swapPair orig (getArr3 hh2 nid) pr))) hh).mem b =
        hh.mem b) := by
  intro ps
  induction ps with
  | nil =>
    intro hh
    exact ⟨rfl, fun b _ => rfl⟩
  | cons p ps ih =>
    intro hh
    rw [List.foldl_cons, List.foldl_cons]
    obtain ⟨ih1, ih2⟩ :=
      ih (hh.store nid (.arr3 (swapPair orig (getArr3 hh nid) p)))
    refine ⟨?_, ?_⟩
    · rw [ih1, getArr3_store_same]
    · intro b hb
      rw [ih2 b hb, store_mem_other _ _ _ _ hb]

/-- Helper: the heap version of flip_keypoints returns a fresh address, does
not write any other address (in particular not the input), and stores exactly
the pure flip result at the fresh address. -/
theorem flip_keypoints_st_spec (keypoints : List String)
    (fm : List (String × String)) (width : ℚ) (h : Heap) (a : ℕ)
    (ha : a < h.next) :
    (flip_keypoints_st keypoints fm width h a).2 = h.next ∧
    (flip_keypoints_st keypoints fm width h a).2 ≠ a ∧
    (∀ b, b ≠ (flip_keypoints_st keypoints fm width h a).2 →
      (flip_keypoints_st keypoints fm width h a).1.mem b = h.mem b) ∧
    getArr3 (flip_keypoints_st keypoints fm width h a).1
        (flip_keypoints_st keypoints fm width h a).2 =
      flip_keypoints keypoints fm (getArr3 h a) width := by
  have e2 : (flip_keypoints_st keypoints fm width h a).2 = h.next := rfl
  refine ⟨e2, by omega, ?_, ?_⟩
  · intro b hb
    rw [e2] at hb
    have hb2 : b ≠ (h.alloc (.arr3 (getArr3 h a))).2 := by
      rw [alloc_snd]
      exact hb
    show (Heap.store _ _ _).mem b = h.mem b
    rw [store_mem_other _ _ _ _ hb2, store_mem_other _ _ _ _ hb2]
    rw [(foldl_store_swap (getArr3 h a) (h.alloc (.arr3 (getArr3 h a))).2
      (flipPairs keypoints fm)
      (h.alloc (.arr3 (getArr3 h a))).1).2 b hb2]
    exact alloc_mem_other h _ b hb
  · funext i c j
    have e2b : (flip_keypoints_st keypoints fm width h a).2 =
        (h.alloc (.arr3 (getArr3 h a))).2 := rfl
    rw [e2b]
    show getArr3 (Heap.store _ _ (.arr3 _)) _ i c j = _
    rw [getArr3_store_same]
    unfold flip_keypoints mirroredOf swappedOf
    simp only [getArr3_store_same,
      (foldl_store_swap (getArr3 h a) (h.alloc (.arr3 (getArr3 h a))).2
        (flipPairs keypoints fm)
        (h.alloc (.arr3 (getArr3 h a))).1).1,
      getArr3_alloc]

/-- Helper: generic foldl invariant preservation on heaps. -/
theorem foldl_invariant {α : Type} (f : Heap → α → Heap) (P : Heap → Prop)
    (hstep : ∀ hh x, P hh → P (f hh x)) :
    ∀ (l : List α) (hh : Heap), P hh → P (l.foldl f hh) := by
  intro l
  induction l with
  | nil =>
    intro hh hp
    exact hp
  | cons x xs ih =>
    intro hh hp
    rw [List.foldl_cons]
    exact ih (f hh x) (hstep hh x hp)

/-- Helper: one loop iteration of the heap decoder does not write any
already-allocated address other than the output array. -/
theorem h2kStep_mem (expF : ℚ → ℚ)
    (resize : (ℕ → ℕ → ℕ → ℚ) → ℕ → ℕ → (ℕ → ℕ → ℕ → ℚ)) (minSize : ℤ)
    (numK : ℕ) (maps : ℕ → ℕ → ℕ → ℕ → ℚ) (rois : List Roi) (outId : ℕ)
    (hh : Heap) (i b : ℕ) (hb : b ≠ outId) (hlt : b < hh.next) :
    (h2kStep expF resize minSize numK maps rois outId hh i).mem b =
      hh.mem b := by
  have h1 : ¬(b = hh.next) := by omega
  have h2 : ¬(b = hh.next + 1) := by omega
  unfold h2kStep scores_to_probs_st Heap.store Heap.alloc
  simp [hb, h1, h2]

/-- Helper: one loop iteration only grows the allocation frontier. -/
theorem h2kStep_next (expF : ℚ → ℚ)
    (resize : (ℕ → ℕ → ℕ → ℚ) → ℕ → ℕ → (ℕ → ℕ → ℕ → ℚ)) (minSize : ℤ)
    (numK : ℕ) (maps : ℕ → ℕ → ℕ → ℕ → ℚ) (rois : List Roi) (outId : ℕ)
    (hh : Heap) (i : ℕ) :
    (h2kStep expF resize minSize numK maps rois outId hh i).next =
      hh.next + 2 := rfl

/-- Helper: the heap decoder never writes the input maps address. -/
theorem heatmaps_to_keypoints_st_frame (expF : ℚ → ℚ)
    (resize : (ℕ → ℕ → ℕ → ℚ) → ℕ → ℕ → (ℕ → ℕ → ℕ → ℚ)) (minSize : ℤ)
    (numK : ℕ) (h : Heap) (mapsId : ℕ) (rois : List Roi)
    (hm : mapsId < h.next) :
    (heatmaps_to_keypoints_st expF resize minSize numK h mapsId
      rois).1.mem mapsId = h.mem mapsId := by
  have hP := foldl_invariant
    (h2kStep expF resize minSize numK (getArr4 h mapsId) rois
      (h.alloc (.arr3 (fun _ _ _ => 0))).2)
    (fun hh => h.next ≤ hh.next ∧ ∀ b, b < h.next → hh.mem b = h.mem b)
    (fun hh i hp => by
      obtain ⟨hp1, hp2⟩ := hp
      refine ⟨?_, ?_⟩
      · rw [h2kStep_next]
        omega
      · intro b hblt
        have hbo : b ≠ (h.alloc (.arr3 (fun _ _ _ => 0))).2 := by
          rw [alloc_snd]
          omega
        rw [h2kStep_mem expF resize minSize numK (getArr4 h mapsId) rois
          (h.alloc (.arr3 (fun _ _ _ => 0))).2 hh i b hbo (by omega)]
        exact hp2 b hblt)
    (List.range rois.length)
    (h.alloc (.arr3 (fun _ _ _ => 0))).1
    ⟨by show h.next ≤ h.next + 1; omega,
     fun b hblt => alloc_mem_other h _ b (by omega)⟩
  exact hP.2 mapsId hm

/-- Claim C10: neither flip_keypoints nor heatmaps_to_keypoints mutates its
caller-supplied input array: flip_keypoints allocates a fresh result array,
leaves every pre-existing address (in particular its input) unchanged, and
the fresh array holds exactly the pure flip result; heatmaps_to_keypoints
leaves the input heatmap address unchanged, its in-place softmax operating
only on a per-instance copy. -/
theorem no_input_mutation (keypoints : List String)
    (fm : List (String × String)) (width : ℚ) (expF : ℚ → ℚ)
    (resize : (ℕ → ℕ → ℕ → ℚ) → ℕ → ℕ → (ℕ → ℕ → ℕ → ℚ)) (minSize : ℤ)
    (numK : ℕ) (rois : List Roi) :
    (∀ (h : Heap) (a : ℕ), a < h.next →
      (flip_keypoints_st keypoints fm width h a).2 = h.next ∧
      (flip_keypoints_st keypoints fm width h a).2 ≠ a ∧
      (∀ b, b ≠ (flip_keypoints_st keypoints fm width h a).2 →
        (flip_keypoints_st keypoints fm width h a).1.mem b = h.mem b) ∧
      getArr3 (flip_keypoints_st keypoints fm width h a).1
          (flip_keypoints_st keypoints fm width h a).2 =
        flip_keypoints keypoints fm (getArr3 h a) width) ∧
    (∀ (h : Heap) (mapsId : ℕ), mapsId < h.next →
      (heatmaps_to_keypoints_st expF resize minSize numK h mapsId
        rois).1.mem mapsId = h.mem mapsId) :=
  ⟨fun h a ha => flip_keypoints_st_spec keypoints fm width h a ha,
   fun h mapsId hm =>
    heatmaps_to_keypoints_st_frame expF resize minSize numK h mapsId rois hm⟩

/-- Witness for C10 at a concrete one-address heap. -/
theorem no_input_mutation_witness :
    (0 : ℕ) < heapZero.next ∧
    ((flip_keypoints_st ["l", "r"] [("l", "r")] 5 heapZero 0).2 =
        heapZero.next ∧
      (flip_keypoints_st ["l", "r"] [("l", "r")] 5 heapZero 0).2 ≠ 0 ∧
      (∀ b, b ≠ (flip_keypoints_st ["l", "r"] [("l", "r")] 5 heapZero 0).2 →
        (flip_keypoints_st ["l", "r"] [("l", "r")] 5 heapZero 0).1.mem b =
          heapZero.mem b) ∧
      getArr3 (flip_keypoints_st ["l", "r"] [("l", "r")] 5 heapZero 0).1
          (flip_keypoints_st ["l", "r"] [("l", "r")] 5 heapZero 0).2 =
        flip_keypoints ["l", "r"] [("l", "r")] (getArr3 heapZero 0) 5) ∧
    (heatmaps_to_keypoints_st id resizeLin 3 17 heapZero 0
      [⟨0, 0, 2, 2⟩]).1.mem 0 = heapZero.mem 0 :=
  ⟨by decide,
   (no_input_mutation ["l", "r"] [("l", "r")] 5 id resizeLin 3 17
     [⟨0, 0, 2, 2⟩]).1 heapZero 0 (by decide),
   (no_input_mutation ["l", "r"] [("l", "r")] 5 id resizeLin 3 17
     [⟨0, 0, 2, 2⟩]).2 heapZero 0 (by decide)⟩

end KeypointsPy
